import Mathlib

/-!
Verification development for the `real_dom` core of the repository: a shallow
embedding of `src/real_dom.rs` (the live tree, dirty tracker, listener index,
watcher plumbing and resolution driver) together with models of the external
collaborators (`tree`, `node`, `node_ref`, `passes`, `node_watcher`) that are
declared in `src/lib.rs` but whose sources are not part of the repository;
those are modelled from the specification's data model and interface sections.

Node identities are `Nat`.  Pass identities (`TypeId` in the source) are
`Nat`.  Hash maps are modelled as functions into `Option`, hash sets as
`Finset`.  Rust panics (`unwrap` on `None`) are modelled by returning `none`
from the embedded operation.
-/

/-- Modelled from the spec: the attribute part of a change mask — either the
set of specifically named attributes, or all attributes (`NodeMaskBuilder::ALL`).
`none` stands for "all attributes". -/
def AttributeMask : Type := Option (Finset String)

instance : DecidableEq AttributeMask := by
  unfold AttributeMask
  infer_instance

/-- Modelled from the spec: union of attribute masks. -/
def AttributeMask.union : AttributeMask → AttributeMask → AttributeMask
  | some a, some b => some (a ∪ b)
  | _, _ => none

/-- Modelled from the spec: overlap test between attribute masks. -/
def AttributeMask.overlaps : AttributeMask → AttributeMask → Bool
  | some a, some b => decide ((a ∩ b).Nonempty)
  | some a, none => decide a.Nonempty
  | none, some b => decide b.Nonempty
  | none, none => true

/-- Modelled from the spec: a change mask describes which observable facets of
a node changed (tag / namespace / text / listeners / specific named
attributes); it supports union and an overlap test against a pass's declared
interest. -/
structure NodeMask where
  tag : Bool
  ns : Bool
  text : Bool
  listeners : Bool
  attrs : AttributeMask
deriving DecidableEq

/-- Modelled from the spec: union of change masks, facet-wise. -/
def NodeMask.union (a b : NodeMask) : NodeMask :=
  ⟨a.tag || b.tag, a.ns || b.ns, a.text || b.text, a.listeners || b.listeners,
    a.attrs.union b.attrs⟩

/-- Modelled from the spec: two masks overlap when they share some facet. -/
def NodeMask.overlaps (a b : NodeMask) : Bool :=
  (a.tag && b.tag) || (a.ns && b.ns) || (a.text && b.text) ||
    (a.listeners && b.listeners) || a.attrs.overlaps b.attrs

/-- `NodeMaskBuilder::new().with_listeners().build()` from the source. -/
def listenersMask : NodeMask := ⟨false, false, false, true, some ∅⟩

/-- `NodeMaskBuilder::ALL.build()` from the source. -/
def allMask : NodeMask := ⟨true, true, true, true, none⟩

/-- The mask marking no facet (`NodeMaskBuilder::new().build()`). -/
def emptyMask : NodeMask := ⟨false, false, false, false, some ∅⟩

/-- Facet-wise inclusion of change masks ("the pending mask only grows"). -/
def NodeMask.Subset (a b : NodeMask) : Prop :=
  (a.tag = true → b.tag = true) ∧ (a.ns = true → b.ns = true) ∧
  (a.text = true → b.text = true) ∧ (a.listeners = true → b.listeners = true) ∧
  (match a.attrs, b.attrs with
   | _, none => True
   | some x, some y => x ⊆ y
   | none, some _ => False)

/-- Modelled from the spec: a pass descriptor (`TypeErasedPass` in the source):
identity, declared interest mask, parent/child-dependant flags, declared
dependency set, and the dependant set computed at construction. -/
structure TypeErasedPass where
  this_type_id : Nat
  mask : NodeMask
  parent_dependant : Bool
  child_dependant : Bool
  combined_dependancy_type_ids : Finset Nat
  dependants : Finset Nat
deriving DecidableEq

/-- One step of the dependency-inversion loop body of `RealDom::new`
(src/real_dom.rs:88-99): with `current` the pass split out at index `cur`,
every *other* pass whose identity is named in `current`'s declared dependency
set gains `current`'s identity in its dependant set. -/
def applyCurrent (current : TypeErasedPass) (cur : Nat)
    (passes : List TypeErasedPass) : List TypeErasedPass :=
  passes.mapIdx (fun j p =>
    if j = cur then p
    else if p.this_type_id ∈ current.combined_dependancy_type_ids then
      { p with dependants := insert current.this_type_id p.dependants }
    else p)

/-- The dependency-inversion loop of `RealDom::new` (src/real_dom.rs:88-99):
`for i in 1..passes.len()`, splitting out `current = passes[i-1]` and updating
every other pass.  Note the loop bound: `i` ranges over `1..len` (exclusive),
so `current` only ranges over indices `0..len-1` (exclusive) — the final
registered pass is never taken as `current`. -/
def resolve_dependants (passes : List TypeErasedPass) : List TypeErasedPass :=
  (List.range' 1 (passes.length - 1)).foldl
    (fun ps i =>
      match ps[i-1]? with
      | some current => applyCurrent current (i-1) ps
      | none => ps)
    passes

/-- Modelled from the spec: node content — a closed variant over Element (tag,
optional namespace, attribute mapping, set of listened event names), Text
(string, set of listened event names) and Placeholder. -/
inductive NodeType where
  | element (tag : String) (ns : Option String) (attributes : List (String × String))
      (listeners : Finset String)
  | text (value : String) (listeners : Finset String)
  | placeholder
deriving DecidableEq

/-- The listener set of a node's content (empty for a placeholder, which owns
no listener set). -/
def NodeType.listeners : NodeType → Finset String
  | .element _ _ _ ls => ls
  | .text _ ls => ls
  | .placeholder => ∅

/-- Replace the listener set of a node's content (no-op on a placeholder). -/
def NodeType.setListeners : NodeType → Finset String → NodeType
  | .element t n a _, ls => .element t n a ls
  | .text s _, ls => .text s ls
  | .placeholder, _ => .placeholder

/-- Whether the content is an Element or Text node (the variants carrying a
listener set, matched by the `if let` patterns in the source). -/
def NodeType.hasListenerSet : NodeType → Bool
  | .element _ _ _ _ => true
  | .text _ _ => true
  | .placeholder => false

/-- Modelled from the spec: the tree collaborator stores nodes with
parent/child structure; we represent the structure as rose trees labelled by
node identity. -/
inductive RTree where
  | node (id : Nat) (children : List RTree)

/-- The identity at the root of a (sub)tree. -/
def RTree.rootId : RTree → Nat
  | .node i _ => i

mutual
/-- All node identities of a subtree, in depth-first preorder. -/
def RTree.ids : RTree → List Nat
  | .node i cs => i :: idsF cs
/-- All node identities of a forest, in depth-first preorder. -/
def idsF : List RTree → List Nat
  | [] => []
  | c :: cs => c.ids ++ idsF cs
end

mutual
/-- Find the subtree rooted at identity `i`, if present. -/
def findT (i : Nat) : RTree → Option RTree
  | .node j cs => if j = i then some (.node j cs) else findF i cs
/-- Find the subtree rooted at identity `i` within a forest. -/
def findF (i : Nat) : List RTree → Option RTree
  | [] => none
  | t :: ts =>
    match findT i t with
    | some r => some r
    | none => findF i ts
end

mutual
/-- Remove every subtree whose root identity is listed in `rm`, keeping the
root of the tree itself (the storage root is exempt from removal). -/
def pruneT (rm : List Nat) : RTree → RTree
  | .node j cs => .node j (pruneF rm cs)
/-- Remove from a forest every subtree whose root identity is listed in `rm`. -/
def pruneF (rm : List Nat) : List RTree → List RTree
  | [] => []
  | .node j cs :: ts =>
    if j ∈ rm then pruneF rm ts
    else .node j (pruneF rm cs) :: pruneF rm ts
end

mutual
/-- Attach `ex` as the last child of the node with identity `p`. -/
def attachT (p : Nat) (ex : RTree) : RTree → RTree
  | .node j cs => if j = p then .node j (cs ++ [ex]) else .node j (attachF p ex cs)
/-- Attach `ex` as the last child of the node with identity `p`, in a forest. -/
def attachF (p : Nat) (ex : RTree) : List RTree → List RTree
  | [] => []
  | t :: ts => attachT p ex t :: attachF p ex ts
end

mutual
/-- The depth of identity `i` in a tree, counting the root as depth `k`. -/
def depthT (i k : Nat) : RTree → Option Nat
  | .node j cs => if j = i then some k else depthF i (k + 1) cs
/-- The depth of identity `i` in a forest of trees rooted at depth `k`. -/
def depthF (i k : Nat) : List RTree → Option Nat
  | [] => none
  | t :: ts =>
    match depthT i k t with
    | some h => some h
    | none => depthF i k ts
end

mutual
/-- The parent of identity `i` strictly inside a tree (none when `i` is the
tree's own root or absent). -/
def parentInT (i : Nat) : RTree → Option Nat
  | .node j cs => if cs.any (fun c => c.rootId = i) then some j else parentInF i cs
/-- The parent of identity `i` inside some tree of a forest. -/
def parentInF (i : Nat) : List RTree → Option Nat
  | [] => none
  | t :: ts =>
    match parentInT i t with
    | some p => some p
    | none => parentInF i ts
end

mutual
/-- The (parent, child) identity pairs of a subtree. -/
def childPairs : RTree → List (Nat × Nat)
  | .node i cs => cs.map (fun c => (i, c.rootId)) ++ childPairsF cs
/-- The (parent, child) identity pairs of a forest. -/
def childPairsF : List RTree → List (Nat × Nat)
  | [] => []
  | c :: cs => childPairs c ++ childPairsF cs
end

/-- Structural notifications observed by node watchers, plus storage
detachment markers; `w` is the watcher's position in registration order. -/
inductive Event where
  | onAdded (w : Nat) (id : Nat)
  | onRemoved (w : Nat) (id : Nat)
  | onMoved (w : Nat) (id : Nat)
  | detached (id : Nat)
deriving DecidableEq

/-- The state of `RealDom` (src/real_dom.rs:64-70) together with the dirty
tracker `NodesDirty` (src/real_dom.rs:16-20) it owns.  `root_tree` is the
attached tree (rooted at the reserved root identity), `detached` the forest of
created-but-unattached subtrees; both live in the external storage
collaborator in the source.  `node_data` is the typed `NodeType` slab,
`nodes_listening` the listener index, `passes_updated` / `nodes_updated` the
pending invalidation state, and `num_watchers` the number of registered
watchers (identified by registration position). -/
structure RealDom where
  next_id : Nat
  root_tree : RTree
  detached : List RTree
  node_data : Nat → Option NodeType
  nodes_listening : String → Option (Finset Nat)
  passes_updated : Nat → Option (Finset Nat)
  nodes_updated : Nat → Option NodeMask
  passes : List TypeErasedPass
  num_watchers : Nat

/-- All identities currently present in storage (attached or detached). -/
def RealDom.allIds (d : RealDom) : List Nat :=
  d.root_tree.ids ++ idsF d.detached

/-- `tree.contains`: whether the identity exists in storage. -/
def RealDom.subtree (d : RealDom) (i : Nat) : Option RTree :=
  match findT i d.root_tree with
  | some r => some r
  | none => findF i d.detached

/-- `tree.height`: the node's current depth; a detached subtree's root has
height 0, matching the storage collaborator's behaviour for created nodes. -/
def RealDom.heightOf (d : RealDom) (i : Nat) : Option Nat :=
  match depthT i 0 d.root_tree with
  | some h => some h
  | none => depthF i 0 d.detached

/-- `tree.parent_id`. -/
def RealDom.parentOf (d : RealDom) (i : Nat) : Option Nat :=
  match parentInT i d.root_tree with
  | some p => some p
  | none => parentInF i d.detached

/-- `NodesDirty::mark_dirty` (src/real_dom.rs:23-35): extend the node's
pending pass set with every registered pass whose interest mask overlaps
`mask`, and union `mask` into the node's pending change mask (inserting it
when the node had no pending mask). -/
def RealDom.mark_dirty (d : RealDom) (id : Nat) (mask : NodeMask) : RealDom :=
  { d with
    passes_updated := fun k =>
      if k = id then
        some (((d.passes_updated id).getD ∅) ∪
          (d.passes.filterMap (fun x =>
            if x.mask.overlaps mask then some x.this_type_id else none)).toFinset)
      else d.passes_updated k,
    nodes_updated := fun k =>
      if k = id then
        some (match d.nodes_updated id with
              | some m => m.union mask
              | none => mask)
      else d.nodes_updated k }

/-- `NodesDirty::mark_parent_added_or_removed` (src/real_dom.rs:37-44). -/
def RealDom.mark_parent_added_or_removed (d : RealDom) (id : Nat) : RealDom :=
  { d with
    passes_updated := fun k =>
      if k = id then
        some (((d.passes_updated id).getD ∅) ∪
          (d.passes.filterMap (fun x =>
            if x.parent_dependant then some x.this_type_id else none)).toFinset)
      else d.passes_updated k }

/-- `NodesDirty::mark_child_changed` (src/real_dom.rs:46-53). -/
def RealDom.mark_child_changed (d : RealDom) (id : Nat) : RealDom :=
  { d with
    passes_updated := fun k =>
      if k = id then
        some (((d.passes_updated id).getD ∅) ∪
          (d.passes.filterMap (fun x =>
            if x.child_dependant then some x.this_type_id else none)).toFinset)
      else d.passes_updated k }

/-- `RealDom::new` (src/real_dom.rs:73-119): set up storage with the reserved
root Element, invert the pass dependency edges, and seed the dirty tracker
with the root marked for every pass and the full change mask. -/
def RealDom.new (passes : List TypeErasedPass) : RealDom :=
  { next_id := 1
    root_tree := .node 0 []
    detached := []
    node_data := fun i =>
      if i = 0 then some (.element "Root" (some "Root") [] ∅) else none
    nodes_listening := fun _ => none
    passes_updated := fun i =>
      if i = 0 then some (passes.map TypeErasedPass.this_type_id).toFinset else none
    nodes_updated := fun i => if i = 0 then some allMask else none
    passes := resolve_dependants passes
    num_watchers := 0 }

/-- `RealDom::create_node` (src/real_dom.rs:121-135): allocate a fresh
identity, extend its pending pass set with every registered pass, insert the
content, and fire every watcher's on-added notification in registration
order. -/
def RealDom.create_node (d : RealDom) (node : NodeType) :
    Nat × RealDom × List Event :=
  let id := d.next_id
  (id,
   { d with
     next_id := id + 1
     detached := d.detached ++ [.node id []]
     passes_updated := fun k =>
       if k = id then
         some (((d.passes_updated id).getD ∅) ∪
           (d.passes.map TypeErasedPass.this_type_id).toFinset)
       else d.passes_updated k
     node_data := fun k => if k = id then some node else d.node_data k },
   (List.range d.num_watchers).map (fun w => .onAdded w id))

/-- `tree.remove_single`, modelled from the spec's storage interface: detach
the node from the structure and drop its typed state.  The reserved root of
the attached tree is exempt from removal. -/
def RealDom.detachSingle (d : RealDom) (i : Nat) : RealDom :=
  { d with
    root_tree := pruneT [i] d.root_tree
    detached := pruneF [i] d.detached
    node_data := fun j => if j = i then none else d.node_data j }

/-- `NodeMut::add_child` (src/real_dom.rs:477-482): mark the parent
child-changed and the child parent-changed, move the child's subtree under the
parent (last in child order), and fire the moved notifications for the child.
Fails (models a storage panic) when the child is absent or the parent is gone
after the move is carved out. -/
def RealDom.add_child (d : RealDom) (parent child : Nat) :
    Option (RealDom × List Event) :=
  let d1 := (d.mark_child_changed parent).mark_parent_added_or_removed child
  match d1.subtree child with
  | none => none
  | some tc =>
    let d2 := { d1 with
      root_tree := pruneT [child] d1.root_tree
      detached := pruneF [child] d1.detached }
    if (d2.subtree parent).isSome then
      some ({ d2 with
                root_tree := attachT parent tc d2.root_tree
                detached := attachF parent tc d2.detached },
            (List.range d1.num_watchers).map (fun w => .onMoved w child))
    else none

/-- `NodeMut::add_event_listener` (src/real_dom.rs:553-574): on an Element or
Text node, mark the listeners facet dirty, insert the event into the node's
listener set, and insert the node into the listener index (creating the
index entry when absent).  A placeholder is silently left unchanged; a missing
node models the `unwrap` panic. -/
def RealDom.add_event_listener (d : RealDom) (id : Nat) (event : String) :
    Option RealDom :=
  match d.node_data id with
  | none => none
  | some nt =>
    if nt.hasListenerSet then
      let d1 := d.mark_dirty id listenersMask
      some { d1 with
        node_data := fun k =>
          if k = id then some (nt.setListeners (insert event nt.listeners))
          else d1.node_data k,
        nodes_listening := fun e =>
          if e = event then some (insert id ((d1.nodes_listening event).getD ∅))
          else d1.nodes_listening e }
    else some d

/-- `NodeMut::remove_event_listener` (src/real_dom.rs:576-590): on an Element
or Text node, mark the listeners facet dirty, remove the event from the node's
listener set, and remove the node from the listener index entry obtained by
`get_mut(event).unwrap()` — when the index has no entry for the event this
unwrap panics (modelled as `none`). -/
def RealDom.remove_event_listener (d : RealDom) (id : Nat) (event : String) :
    Option RealDom :=
  match d.node_data id with
  | none => none
  | some nt =>
    if nt.hasListenerSet then
      let d1 := d.mark_dirty id listenersMask
      match d1.nodes_listening event with
      | none => none
      | some s =>
        some { d1 with
          node_data := fun k =>
            if k = id then some (nt.setListeners (nt.listeners.erase event))
            else d1.node_data k,
          nodes_listening := fun e =>
            if e = event then some (s.erase id) else d1.nodes_listening e }
    else some d

/-- The listener purge at the start of `NodeMut::remove`
(src/real_dom.rs:508-521): for every event the node listens to, remove the
node from that event's index entry via `get_mut(&event).unwrap()` — the
unwrap panics (modelled as `none`) when some listened event has no index
entry. -/
def purgeListeners (ls : Finset String) (idx : String → Option (Finset Nat))
    (id : Nat) : Option (String → Option (Finset Nat)) :=
  if ∀ e ∈ ls, (idx e).isSome then
    some (fun e => if e ∈ ls then (idx e).map (fun s => s.erase id) else idx e)
  else none

mutual
/-- `NodeMut::remove` (src/real_dom.rs:507-535) on the subtree captured at
entry: take the node's listener set (leaving it empty) and purge it from the
listener index, fire the removed notifications, mark the parent
child-changed, recursively remove the children depth-first, and finally
detach the node from storage.  The recursion is modelled on the subtree
snapshot; watcher notifications are observers, so the children captured here
coincide with the live children lists the source re-reads.  The trace records
notifications and detachments in execution order. -/
def removeSub : RTree → RealDom → Option (RealDom × List Event)
  | .node i cs, d =>
    match d.node_data i with
    | none => none
    | some nt =>
      match purgeListeners nt.listeners d.nodes_listening i with
      | none => none
      | some idx =>
        let d1 := { d with
          node_data := fun j =>
            if j = i then some (nt.setListeners ∅) else d.node_data j,
          nodes_listening := idx }
        let ev0 := (List.range d1.num_watchers).map (fun w => Event.onRemoved w i)
        let d2 := match d1.parentOf i with
                  | some p => d1.mark_child_changed p
                  | none => d1
        match removeList cs d2 with
        | none => none
        | some (d3, ev1) => some (d3.detachSingle i, ev0 ++ ev1 ++ [.detached i])
/-- Sequential removal of a list of sibling subtrees, left to right. -/
def removeList : List RTree → RealDom → Option (RealDom × List Event)
  | [], d => some (d, [])
  | c :: cs, d =>
    match removeSub c d with
    | none => none
    | some (d1, e1) =>
      match removeList cs d1 with
      | none => none
      | some (d2, e2) => some (d2, e1 ++ e2)
end

/-- `NodeMut::remove` on a node identity: capture the node's subtree and
remove it. -/
def RealDom.remove (d : RealDom) (id : Nat) : Option (RealDom × List Event) :=
  match d.subtree id with
  | none => none
  | some t => removeSub t d

mutual
/-- `RealDom::clone_node` (src/real_dom.rs:166-177) on the subtree captured at
entry: read the node's content (listener set included), create a fresh node
with that content, then clone each child recursively and attach the clone as a
child of the new node.  The listener index is never touched. -/
def cloneSub : RTree → RealDom → Option (Nat × RealDom × List Event)
  | .node i cs, d =>
    match d.node_data i with
    | none => none
    | some nt =>
      match d.create_node nt with
      | (nid, d1, ev1) =>
        match cloneChildren cs nid d1 with
        | none => none
        | some (d2, ev2) => some (nid, d2, ev1 ++ ev2)
/-- Clone each child subtree in order and attach it under `nid`. -/
def cloneChildren : List RTree → Nat → RealDom → Option (RealDom × List Event)
  | [], _, d => some (d, [])
  | c :: cs, nid, d =>
    match cloneSub c d with
    | none => none
    | some (cid, d1, e1) =>
      match d1.add_child nid cid with
      | none => none
      | some (d2, e2) =>
        match cloneChildren cs nid d2 with
        | none => none
        | some (d3, e3) => some (d3, e1 ++ e2 ++ e3)
end

/-- `RealDom::clone_node` on a node identity: capture the subtree (a missing
node models the `get(node_id).unwrap()` panic) and clone it. -/
def RealDom.clone_node (d : RealDom) (id : Nat) :
    Option (Nat × RealDom × List Event) :=
  match d.subtree id with
  | none => none
  | some t => cloneSub t d

/-- `RealDom::get_listening_sorted` (src/real_dom.rs:139-153): collect the
identities in the listener index entry for the event paired with their current
heights, sort by height in reverse order, and return the identities; the empty
list when the index has no entry.  Index-set iteration is modelled in
ascending identity order, making the result deterministic for a fixed tree. -/
def RealDom.get_listening_sorted (d : RealDom) (event : String) : List Nat :=
  match d.nodes_listening event with
  | none => []
  | some s =>
    (((s.sort (· ≤ ·)).map (fun i => (i, (d.heightOf i).getD 0))).mergeSort
        (fun a b => b.2 ≤ a.2)).map Prod.fst

/-- `RealDom::update_state` (src/real_dom.rs:193-215): take both pending
mappings (leaving them empty), and build the height-annotated dirty set handed
to the external resolution engine: each drained (node, pass) entry whose node
still has a height (still exists) is inserted with the node's current height;
entries for vanished nodes are dropped.  Returns the new state, the dirty set
(as pass ↦ node ↦ height), and the pre-drain change-mask mapping that the
source returns as the second component of its result pair. -/
def RealDom.update_state (d : RealDom) :
    RealDom × (Nat → Nat → Option Nat) × (Nat → Option NodeMask) :=
  ({ d with passes_updated := fun _ => none, nodes_updated := fun _ => none },
   fun pass node =>
     match d.passes_updated node, d.heightOf node with
     | some s, some h => if pass ∈ s then some h else none
     | _, _ => none,
   d.nodes_updated)

/-- The mutual-consistency invariant between the listener index and the
per-node listener sets: an event name maps to a node identity in the index
exactly when that node exists and its own listener set contains the event
name. -/
def Consistent (d : RealDom) : Prop :=
  ∀ e i, (∃ s, d.nodes_listening e = some s ∧ i ∈ s) ↔
    (∃ nt, d.node_data i = some nt ∧ e ∈ nt.listeners)

/-- A sample Element content listening to "click", used to instantiate
theorems with hypotheses at a concrete state. -/
def sampleChild : NodeType := .element "div" none [] {"click"}

/-- A concrete reachable dom: the reserved root with one attached Element
child (identity 1) listening to "click", one registered watcher, no passes. -/
def sampleDom : RealDom :=
  { next_id := 2
    root_tree := .node 0 [.node 1 []]
    detached := []
    node_data := fun i =>
      if i = 0 then some (.element "Root" (some "Root") [] ∅)
      else if i = 1 then some sampleChild else none
    nodes_listening := fun e => if e = "click" then some {1} else none
    passes_updated := fun _ => none
    nodes_updated := fun _ => none
    passes := []
    num_watchers := 1 }

/-- The dom produced by cloning `sampleDom`'s node 1 (the dom unchanged in the
impossible failure case). -/
def cloneResultDom : RealDom :=
  match sampleDom.clone_node 1 with
  | some r => r.2.1
  | none => sampleDom

/-- The dom produced by adding a "hover" listener on `sampleDom`'s node 1. -/
def addListenerResultDom : RealDom :=
  (sampleDom.add_event_listener 1 "hover").getD sampleDom

/-- The dom produced by removing the "click" listener on `sampleDom`'s
node 1. -/
def removeListenerResultDom : RealDom :=
  (sampleDom.remove_event_listener 1 "click").getD sampleDom

/-- The cloned subtree matches the original node-for-node: same shape, and
the clone dom's content (`g`) at each new identity equals the original dom's
content (`f`) at the corresponding original identity. -/
def ContentMatch (f g : Nat → Option NodeType) : RTree → RTree → Prop
  | .node i cs, .node i2 cs2 =>
    (∃ nt, f i = some nt ∧ g i2 = some nt) ∧
    cs.length = cs2.length ∧
    ∀ p ∈ cs.zip cs2, ContentMatch f g p.1 p.2
termination_by t _ => sizeOf t
decreasing_by
  simp only [RTree.node.sizeOf_spec]
  have := List.sizeOf_lt_of_mem (List.of_mem_zip (by assumption)).1
  omega

/-- The state-and-trace outcome of removing the nodes `ids` (a removed
subtree, or the concatenation of removed sibling subtrees) from `d`,
yielding `d2` with trace `tr`: all removed storage dropped, everything else
untouched, the listener index only shrunk and containing no removed identity,
consistency maintained, the tree structure pruned, and every removed node's
watcher notifications fired before its detachment. -/
def RemoveOutcome (d : RealDom) (ids : List Nat) (d2 : RealDom)
    (tr : List Event) : Prop :=
  (∀ j ∈ ids, d2.node_data j = none) ∧
  (∀ j, j ∉ ids → d2.node_data j = d.node_data j) ∧
  (∀ e s2, d2.nodes_listening e = some s2 →
    ∃ s1, d.nodes_listening e = some s1 ∧ s2 ⊆ s1) ∧
  (∀ e s2, d2.nodes_listening e = some s2 → ∀ i ∈ ids, i ∉ s2) ∧
  Consistent d2 ∧
  d2.root_tree = pruneT ids d.root_tree ∧
  d2.detached = pruneF ids d.detached ∧
  (d2.next_id = d.next_id ∧ d2.num_watchers = d.num_watchers ∧
    d2.passes = d.passes) ∧
  (∀ i ∈ ids, ∀ w, w < d.num_watchers →
    List.Sublist [Event.onRemoved w i, Event.detached i] tr)

theorem attrs_union_comm (a b : AttributeMask) :
    a.union b = b.union a := by
  cases a <;> cases b <;> simp [AttributeMask.union, Finset.union_comm]

theorem attrs_union_assoc (a b c : AttributeMask) :
    (a.union b).union c = a.union (b.union c) := by
  cases a <;> cases b <;> cases c <;> simp [AttributeMask.union, Finset.union_assoc]

theorem NodeMask.union_comm (a b : NodeMask) : a.union b = b.union a := by
  simp [NodeMask.union, Bool.or_comm, attrs_union_comm a.attrs]

theorem NodeMask.union_assoc (a b c : NodeMask) :
    (a.union b).union c = a.union (b.union c) := by
  simp [NodeMask.union, Bool.or_assoc, attrs_union_assoc]

theorem emptyMask_union (m : NodeMask) : emptyMask.union m = m := by
  cases m with
  | mk t n x l a => cases a <;> simp [NodeMask.union, emptyMask, AttributeMask.union]

theorem NodeMask.subset_union_left (a b : NodeMask) : a.Subset (a.union b) := by
  refine ⟨?_, ?_, ?_, ?_, ?_⟩ <;>
    first
      | (intro h; simp [NodeMask.union, h])
      | (cases ha : a.attrs <;> cases hb : b.attrs <;>
          simp [NodeMask.union, AttributeMask.union, ha, hb, Finset.subset_union_left])

/-- C1: the claim fails on the code.  At construction with two registered
passes where the second (last) pass declares a dependency on the first, the
first pass's dependant set should gain the second pass's identity; but the
inversion loop `for i in 1..passes.len()` never takes the last pass as
`current`, so both dependant sets stay empty. -/
theorem c1_last_pass_dependency_never_inverted :
    ((RealDom.new
        [⟨0, emptyMask, false, false, ∅, ∅⟩,
         ⟨1, emptyMask, false, false, {0}, ∅⟩]).passes.map
      TypeErasedPass.dependants = [∅, ∅]) ∧
    ¬ (1 ∈ ((RealDom.new
        [⟨0, emptyMask, false, false, ∅, ∅⟩,
         ⟨1, emptyMask, false, false, {0}, ∅⟩]).passes.map
      TypeErasedPass.dependants)[0]?.getD ∅) := by
  constructor <;> decide

/-- C3: one call to `update_state` drains both pending mappings (leaving both
empty), hands the external engine exactly the drained (node, pass) entries
whose node still exists — annotated with the node's height at drain time,
entries for vanished nodes being dropped — and returns the pre-drain
change-mask mapping as its second result component. -/
theorem c3_update_state_drains_and_revalidates (d : RealDom) :
    ((d.update_state.1.passes_updated = fun _ => none) ∧
     (d.update_state.1.nodes_updated = fun _ => none)) ∧
    (∀ pass node h, d.update_state.2.1 pass node = some h ↔
      ∃ s, d.passes_updated node = some s ∧ pass ∈ s ∧ d.heightOf node = some h) ∧
    d.update_state.2.2 = d.nodes_updated := by
  refine ⟨⟨rfl, rfl⟩, ?_, rfl⟩
  intro pass node h
  simp only [RealDom.update_state]
  cases hs : d.passes_updated node <;> cases hh : d.heightOf node <;> simp

/-- C4: `mark_dirty` adds to the node's pending pass set exactly the
registered passes whose declared interest mask overlaps the given mask, and
sets the node's pending change mask to the union of its previous pending mask
and the given mask (the given mask itself when no mask was pending). -/
theorem c4_mark_dirty_adds_exactly_overlapping_passes
    (d : RealDom) (id : Nat) (mask : NodeMask) :
    (∀ p, p ∈ ((d.mark_dirty id mask).passes_updated id).getD ∅ ↔
      (p ∈ (d.passes_updated id).getD ∅ ∨
        ∃ x ∈ d.passes, x.this_type_id = p ∧ x.mask.overlaps mask)) ∧
    (d.mark_dirty id mask).nodes_updated id =
      some (match d.nodes_updated id with
            | some m => m.union mask
            | none => mask) := by
  constructor
  · intro p
    have heq : (d.mark_dirty id mask).passes_updated id =
        some (((d.passes_updated id).getD ∅) ∪
          (d.passes.filterMap (fun x =>
            if x.mask.overlaps mask then some x.this_type_id else none)).toFinset) := by
      simp [RealDom.mark_dirty]
    rw [heq]
    simp only [Option.getD_some, Finset.mem_union, List.mem_toFinset,
      List.mem_filterMap]
    constructor
    · rintro (h | ⟨x, hx, hfx⟩)
      · exact Or.inl h
      · refine Or.inr ⟨x, hx, ?_⟩
        by_cases hov : x.mask.overlaps mask <;> simp [hov] at hfx ⊢
        exact hfx
    · rintro (h | ⟨x, hx, hid, hov⟩)
      · exact Or.inl h
      · exact Or.inr ⟨x, hx, by simp [hov, hid]⟩
  · simp [RealDom.mark_dirty]

/-- Pointwise evaluation of the pending change-mask mapping after
`mark_dirty`. -/
theorem mark_dirty_nodes_updated (d : RealDom) (id : Nat) (mask : NodeMask)
    (k : Nat) :
    (d.mark_dirty id mask).nodes_updated k =
      if k = id then
        some (match d.nodes_updated id with
              | some m => m.union mask
              | none => mask)
      else d.nodes_updated k := rfl

/-- Pointwise evaluation of the pending pass-set mapping after `mark_dirty`. -/
theorem mark_dirty_passes_updated (d : RealDom) (id : Nat) (mask : NodeMask)
    (k : Nat) :
    (d.mark_dirty id mask).passes_updated k =
      if k = id then
        some (((d.passes_updated id).getD ∅) ∪
          (d.passes.filterMap (fun x =>
            if x.mask.overlaps mask then some x.this_type_id else none)).toFinset)
      else d.passes_updated k := rfl

/-- The empty mask is below every mask. -/
theorem emptyMask_subset (m : NodeMask) : emptyMask.Subset m := by
  refine ⟨by simp [emptyMask], by simp [emptyMask], by simp [emptyMask],
    by simp [emptyMask], ?_⟩
  cases h : m.attrs <;> simp [emptyMask, h]

/-- C5: dirty marking is order-independent and monotonic: marking a node with
M1 then M2 leaves the same pending change-mask mapping as M2 then M1, the
accumulated mask is the previous pending mask (trivial when absent) unioned
with M1 ∪ M2, and one marking only grows the pending mask. -/
theorem c5_mark_dirty_order_independent_monotonic
    (d : RealDom) (id : Nat) (m1 m2 : NodeMask) :
    (((d.mark_dirty id m1).mark_dirty id m2).nodes_updated =
      ((d.mark_dirty id m2).mark_dirty id m1).nodes_updated) ∧
    (((d.mark_dirty id m1).mark_dirty id m2).nodes_updated id =
      some (((d.nodes_updated id).getD emptyMask).union (m1.union m2))) ∧
    NodeMask.Subset ((d.nodes_updated id).getD emptyMask)
      (((d.mark_dirty id m1).nodes_updated id).getD emptyMask) := by
  refine ⟨funext (fun k => ?_), ?_, ?_⟩
  · by_cases hk : k = id
    · subst hk
      cases h : d.nodes_updated k
      · simp [mark_dirty_nodes_updated, h, NodeMask.union_comm m1 m2]
      · simp [mark_dirty_nodes_updated, h]
        rw [NodeMask.union_assoc, NodeMask.union_assoc, NodeMask.union_comm m1 m2]
    · simp [mark_dirty_nodes_updated, hk]
  · cases h : d.nodes_updated id
    · simp [mark_dirty_nodes_updated, h, emptyMask_union]
    · simp [mark_dirty_nodes_updated, h, NodeMask.union_assoc]
  · cases h : d.nodes_updated id
    · simpa [mark_dirty_nodes_updated, h] using emptyMask_subset m1
    · simpa [mark_dirty_nodes_updated, h] using NodeMask.subset_union_left _ m1

/-- C6: immediately after `create_node` returns, the new node's pending pass
set equals the full set of registered pass identities, and each registered
watcher's on-added notification has been fired in registration order. -/
theorem c6_create_node_marks_all_passes (d : RealDom) (node : NodeType)
    (hfresh : d.passes_updated d.next_id = none) :
    ((d.create_node node).2.1.passes_updated (d.create_node node).1 =
      some (d.passes.map TypeErasedPass.this_type_id).toFinset) ∧
    ((d.create_node node).2.2 =
      (List.range d.num_watchers).map (fun w => .onAdded w (d.create_node node).1)) := by
  constructor
  · simp [RealDom.create_node, hfresh]
  · rfl

/-- Witness for C6 at a concrete input: the dom freshly constructed with no
passes has no pending entry for the next identity, and creating a placeholder
node there marks it for the (empty) full pass set with no watchers to
notify. -/
theorem c6_witness :
    ((RealDom.new []).passes_updated (RealDom.new []).next_id = none) ∧
    ((((RealDom.new []).create_node .placeholder).2.1.passes_updated
        (((RealDom.new []).create_node .placeholder)).1 =
      some ((RealDom.new []).passes.map TypeErasedPass.this_type_id).toFinset) ∧
     (((RealDom.new []).create_node .placeholder).2.2 =
      (List.range (RealDom.new []).num_watchers).map
        (fun w => .onAdded w (((RealDom.new []).create_node .placeholder)).1))) :=
  ⟨rfl, c6_create_node_marks_all_passes (RealDom.new []) .placeholder rfl⟩

/-- C10: on an Element or Text node, `remove_event_listener` with an event
name that has no entry in the listener index panics (modelled as `none`);
when the index does have an entry for that event, the panic branch is
unreachable and the operation completes. -/
theorem c10_remove_event_listener_panics_on_missing_entry
    (d : RealDom) (id : Nat) (event : String) (nt : NodeType)
    (h1 : d.node_data id = some nt) (h2 : nt.hasListenerSet = true) :
    (d.nodes_listening event = none →
      d.remove_event_listener id event = none) ∧
    (∀ s, d.nodes_listening event = some s →
      (d.remove_event_listener id event).isSome) := by
  constructor
  · intro hnone
    simp [RealDom.remove_event_listener, h1, h2, RealDom.mark_dirty, hnone]
  · intro s hs
    simp [RealDom.remove_event_listener, h1, h2, RealDom.mark_dirty, hs]

/-- Witness for C10 at a concrete input: node 1 of the sample dom is an
Element; the index has no entry for "hover" (so removal panics) and an entry
for "click" (so removal completes). -/
theorem c10_witness :
    (sampleDom.node_data 1 = some sampleChild) ∧
    (sampleChild.hasListenerSet = true) ∧
    ((sampleDom.nodes_listening "hover" = none →
        sampleDom.remove_event_listener 1 "hover" = none) ∧
      (∀ s, sampleDom.nodes_listening "hover" = some s →
        (sampleDom.remove_event_listener 1 "hover").isSome)) ∧
    ((sampleDom.nodes_listening "click" = none →
        sampleDom.remove_event_listener 1 "click" = none) ∧
      (∀ s, sampleDom.nodes_listening "click" = some s →
        (sampleDom.remove_event_listener 1 "click").isSome)) :=
  ⟨rfl, rfl,
    c10_remove_event_listener_panics_on_missing_entry sampleDom 1 "hover"
      sampleChild rfl rfl,
    c10_remove_event_listener_panics_on_missing_entry sampleDom 1 "click"
      sampleChild rfl rfl⟩

/-- C8: the listening-nodes query returns exactly the identities recorded in
the listener index for the event (the empty list when the index has no
entry), in non-increasing height order; the result is a deterministic
function of the state. -/
theorem c8_get_listening_sorted_members_and_order (d : RealDom) (event : String) :
    (∀ i, i ∈ d.get_listening_sorted event ↔
      ∃ s, d.nodes_listening event = some s ∧ i ∈ s) ∧
    List.Pairwise (fun a b => (d.heightOf b).getD 0 ≤ (d.heightOf a).getD 0)
      (d.get_listening_sorted event) ∧
    (d.nodes_listening event = none → d.get_listening_sorted event = []) := by
  cases hL : d.nodes_listening event with
  | none => simp [RealDom.get_listening_sorted, hL]
  | some s =>
    refine ⟨?_, ?_, by simp [hL]⟩
    · intro i
      simp only [RealDom.get_listening_sorted, hL]
      rw [List.mem_map]
      constructor
      · rintro ⟨p, hp, rfl⟩
        have hp2 := (List.mergeSort_perm _ _).mem_iff.mp hp
        simp only [List.mem_map] at hp2
        obtain ⟨j, hj, rfl⟩ := hp2
        exact ⟨s, rfl, (Finset.mem_sort _).mp hj⟩
      · rintro ⟨s', hs', hi⟩
        injection hs' with hs'
        subst hs'
        refine ⟨(i, (d.heightOf i).getD 0), ?_, rfl⟩
        rw [(List.mergeSort_perm _ _).mem_iff]
        simp only [List.mem_map]
        exact ⟨i, (Finset.mem_sort _).mpr hi, rfl⟩
    · simp only [RealDom.get_listening_sorted, hL]
      rw [List.pairwise_map]
      have htr : ∀ a b c : Nat × Nat,
          (fun x y : Nat × Nat => decide (y.2 ≤ x.2)) a b = true →
          (fun x y : Nat × Nat => decide (y.2 ≤ x.2)) b c = true →
          (fun x y : Nat × Nat => decide (y.2 ≤ x.2)) a c = true := by
        intro a b c hab hbc
        simp at hab hbc ⊢
        omega
      have hto : ∀ a b : Nat × Nat,
          ((fun x y : Nat × Nat => decide (y.2 ≤ x.2)) a b ||
           (fun x y : Nat × Nat => decide (y.2 ≤ x.2)) b a) = true := by
        intro a b
        simp
        omega
      have hsorted := List.sorted_mergeSort htr hto
        ((s.sort (· ≤ ·)).map (fun i => (i, (d.heightOf i).getD 0)))
      refine List.Pairwise.imp_of_mem ?_ hsorted
      intro a b ha hb hab
      have ha2 := (List.mergeSort_perm _ _).mem_iff.mp ha
      have hb2 := (List.mergeSort_perm _ _).mem_iff.mp hb
      simp only [List.mem_map] at ha2 hb2
      obtain ⟨j, _, rfl⟩ := ha2
      obtain ⟨k, _, rfl⟩ := hb2
      simpa using hab

/-- Induction over rose trees with the hypothesis available for every child. -/
theorem RTree.inductionOn {P : RTree → Prop}
    (h : ∀ i cs, (∀ c ∈ cs, P c) → P (.node i cs)) : ∀ t, P t
  | .node i cs => h i cs (fun c hc => RTree.inductionOn h c)
termination_by t => sizeOf t
decreasing_by
  simp only [RTree.node.sizeOf_spec]
  have := List.sizeOf_lt_of_mem hc
  omega

theorem ids_node (i : Nat) (cs : List RTree) :
    (RTree.node i cs).ids = i :: idsF cs := by
  simp [RTree.ids]

theorem idsF_cons (c : RTree) (cs : List RTree) :
    idsF (c :: cs) = c.ids ++ idsF cs := by
  simp [idsF]

theorem rootId_mem_ids (t : RTree) : t.rootId ∈ t.ids := by
  cases t with
  | node i cs => simp [RTree.rootId, ids_node]

/-- Pruning only consults membership in the removal list. -/
theorem pruneF_congr (rm1 rm2 : List Nat) (f : List RTree)
    (h : ∀ j, j ∈ rm1 ↔ j ∈ rm2) : pruneF rm1 f = pruneF rm2 f := by
  match f with
  | [] => simp [pruneF]
  | .node j cs :: ts =>
    by_cases hj : j ∈ rm1
    · simp [pruneF, hj, (h j).mp hj, pruneF_congr rm1 rm2 ts h]
    · have hj2 : j ∉ rm2 := fun hx => hj ((h j).mpr hx)
      simp [pruneF, hj, hj2, pruneF_congr rm1 rm2 ts h, pruneF_congr rm1 rm2 cs h]
termination_by sizeOf f

theorem pruneT_congr (rm1 rm2 : List Nat) (t : RTree)
    (h : ∀ j, j ∈ rm1 ↔ j ∈ rm2) : pruneT rm1 t = pruneT rm2 t := by
  cases t with
  | node j cs => simp [pruneT, pruneF_congr rm1 rm2 cs h]

/-- Pruning twice prunes by the combined removal list. -/
theorem pruneF_pruneF (a b : List Nat) (f : List RTree) :
    pruneF a (pruneF b f) = pruneF (b ++ a) f := by
  match f with
  | [] => simp [pruneF]
  | .node j cs :: ts =>
    by_cases hb : j ∈ b
    · simp [pruneF, hb, pruneF_pruneF a b ts]
    · by_cases ha : j ∈ a <;>
        simp [pruneF, hb, ha, pruneF_pruneF a b ts, pruneF_pruneF a b cs]
termination_by sizeOf f

theorem pruneT_pruneT (a b : List Nat) (t : RTree) :
    pruneT a (pruneT b t) = pruneT (b ++ a) t := by
  cases t with
  | node j cs => simp [pruneT, pruneF_pruneF a b cs]

/-- Pruning by identities absent from a forest is the identity. -/
theorem pruneF_of_disjoint (rm : List Nat) (f : List RTree)
    (h : ∀ j ∈ idsF f, j ∉ rm) : pruneF rm f = f := by
  match f with
  | [] => simp [pruneF]
  | .node j cs :: ts =>
    have hj : j ∉ rm := h j (by simp [idsF_cons, ids_node])
    have hcs : ∀ x ∈ idsF cs, x ∉ rm := fun x hx =>
      h x (by simp [idsF_cons, ids_node, hx])
    have hts : ∀ x ∈ idsF ts, x ∉ rm := fun x hx => h x (by simp [idsF_cons, hx])
    simp [pruneF, hj, pruneF_of_disjoint rm cs hcs, pruneF_of_disjoint rm ts hts]
termination_by sizeOf f

theorem pruneT_of_disjoint (rm : List Nat) (t : RTree)
    (h : ∀ j ∈ t.ids, j ∉ rm) : pruneT rm t = t := by
  cases t with
  | node j cs =>
    have hcs : ∀ x ∈ idsF cs, x ∉ rm := fun x hx => h x (by simp [ids_node, hx])
    simp [pruneT, pruneF_of_disjoint rm cs hcs]

/-- A find that fails everywhere in a forest. -/
theorem findF_of_not_mem (i : Nat) (f : List RTree) (h : i ∉ idsF f) :
    findF i f = none := by
  match f with
  | [] => simp [findF]
  | .node j cs :: ts =>
    have hj : ¬ j = i := by
      intro hji
      exact h (by simp [idsF_cons, ids_node, hji])
    have hcs : i ∉ idsF cs := fun hx => h (by simp [idsF_cons, ids_node, hx])
    have hts : i ∉ idsF ts := fun hx => h (by simp [idsF_cons, hx])
    simp [findF, findT, hj, findF_of_not_mem i cs hcs, findF_of_not_mem i ts hts]
termination_by sizeOf f

theorem findT_of_not_mem (i : Nat) (t : RTree) (h : i ∉ t.ids) :
    findT i t = none := by
  cases t with
  | node j cs =>
    have hj : ¬ j = i := by
      intro hji
      exact h (by simp [ids_node, hji])
    have hcs : i ∉ idsF cs := fun hx => h (by simp [ids_node, hx])
    simp [findT, hj, findF_of_not_mem i cs hcs]

/-- Attaching at an identity absent from a forest is the identity. -/
theorem attachF_of_not_mem (p : Nat) (ex : RTree) (f : List RTree)
    (h : p ∉ idsF f) : attachF p ex f = f := by
  match f with
  | [] => simp [attachF]
  | .node j cs :: ts =>
    have hj : ¬ j = p := by
      intro hjp
      exact h (by simp [idsF_cons, ids_node, hjp])
    have hcs : p ∉ idsF cs := fun hx => h (by simp [idsF_cons, ids_node, hx])
    have hts : p ∉ idsF ts := fun hx => h (by simp [idsF_cons, hx])
    simp [attachF, attachT, hj, attachF_of_not_mem p ex cs hcs,
      attachF_of_not_mem p ex ts hts]
termination_by sizeOf f

theorem attachT_of_not_mem (p : Nat) (ex : RTree) (t : RTree)
    (h : p ∉ t.ids) : attachT p ex t = t := by
  cases t with
  | node j cs =>
    have hj : ¬ j = p := by
      intro hjp
      exact h (by simp [ids_node, hjp])
    have hcs : p ∉ idsF cs := fun hx => h (by simp [ids_node, hx])
    simp [attachT, hj, attachF_of_not_mem p ex cs hcs]

theorem setListeners_empty_listeners (nt : NodeType) :
    (nt.setListeners ∅).listeners = ∅ := by
  cases nt <;> rfl

/-- Transport of the consistency invariant along equal listener/content
fields. -/
theorem consistent_congr (d d' : RealDom)
    (h1 : d'.nodes_listening = d.nodes_listening)
    (h2 : d'.node_data = d.node_data) (h : Consistent d) : Consistent d' := by
  intro e i
  rw [h1, h2]
  exact h e i

/-- The optional child-changed dirty mark on the parent leaves every field
other than the pending pass sets unchanged. -/
theorem mark_parent_match_fields (d : RealDom) (x : Option Nat) :
    ((match x with
      | some p => d.mark_child_changed p
      | none => d) : RealDom).node_data = d.node_data ∧
    ((match x with
      | some p => d.mark_child_changed p
      | none => d) : RealDom).nodes_listening = d.nodes_listening ∧
    ((match x with
      | some p => d.mark_child_changed p
      | none => d) : RealDom).root_tree = d.root_tree ∧
    ((match x with
      | some p => d.mark_child_changed p
      | none => d) : RealDom).detached = d.detached ∧
    ((match x with
      | some p => d.mark_child_changed p
      | none => d) : RealDom).next_id = d.next_id ∧
    ((match x with
      | some p => d.mark_child_changed p
      | none => d) : RealDom).num_watchers = d.num_watchers ∧
    ((match x with
      | some p => d.mark_child_changed p
      | none => d) : RealDom).passes = d.passes := by
  cases x <;> exact ⟨rfl, rfl, rfl, rfl, rfl, rfl, rfl⟩

mutual

/-- Master lemma for `removeSub` on a subtree with distinct identities, all
present in storage, in a consistent dom: the removal succeeds and produces
the `RemoveOutcome`, the trace ends with the subtree root's detachment, and
every child is detached strictly before its parent. -/
theorem removeSub_spec (t : RTree) (d : RealDom)
    (hnd : t.ids.Nodup)
    (hdata : ∀ i ∈ t.ids, (d.node_data i).isSome)
    (hcons : Consistent d) :
    ∃ d2 tr, removeSub t d = some (d2, tr) ∧ RemoveOutcome d t.ids d2 tr ∧
      tr.getLast? = some (Event.detached t.rootId) ∧
      (∀ pc ∈ childPairs t,
        List.Sublist [Event.detached pc.2, Event.detached pc.1] tr) := by
  match t with
  | .node i cs =>
    have hmem_i : i ∈ (RTree.node i cs).ids := by simp [ids_node]
    obtain ⟨nt, hnt⟩ := Option.isSome_iff_exists.mp (hdata i hmem_i)
    have hi_not_cs : i ∉ idsF cs := by
      have := hnd
      rw [ids_node, List.nodup_cons] at this
      exact this.1
    have hsome : ∀ e ∈ nt.listeners, (d.nodes_listening e).isSome := by
      intro e he
      obtain ⟨s, hs, _⟩ := (hcons e i).mpr ⟨nt, hnt, he⟩
      simp [hs]
    have hpurge : purgeListeners nt.listeners d.nodes_listening i =
        some (fun e => if e ∈ nt.listeners then
          (d.nodes_listening e).map (fun s => s.erase i)
          else d.nodes_listening e) := by
      unfold purgeListeners
      rw [if_pos hsome]
    set d1 : RealDom := { d with
      node_data := fun j =>
        if j = i then some (nt.setListeners ∅) else d.node_data j,
      nodes_listening := fun e =>
        if e ∈ nt.listeners then
          (d.nodes_listening e).map (fun s => s.erase i)
        else d.nodes_listening e } with hd1def
    have hd1L : ∀ e, d1.nodes_listening e =
        if e ∈ nt.listeners then
          (d.nodes_listening e).map (fun s => s.erase i)
        else d.nodes_listening e := fun e => rfl
    have hd1D : ∀ j, d1.node_data j =
        if j = i then some (nt.setListeners ∅) else d.node_data j := fun j => rfl
    have f3 : ∀ e s2, d1.nodes_listening e = some s2 →
        ∃ s1, d.nodes_listening e = some s1 ∧ s2 ⊆ s1 := by
      intro e s2 hs2
      rw [hd1L] at hs2
      by_cases he : e ∈ nt.listeners
      · rw [if_pos he] at hs2
        cases hL : d.nodes_listening e with
        | none => rw [hL] at hs2; cases hs2
        | some s1 =>
          rw [hL] at hs2
          have hs2b : s1.erase i = s2 := by simpa using hs2
          exact ⟨s1, rfl, hs2b ▸ Finset.erase_subset i s1⟩
      · rw [if_neg he] at hs2
        exact ⟨s2, hs2, fun x hx => hx⟩
    have f2 : ∀ e s2, d1.nodes_listening e = some s2 → i ∉ s2 := by
      intro e s2 hs2
      rw [hd1L] at hs2
      by_cases he : e ∈ nt.listeners
      · rw [if_pos he] at hs2
        cases hL : d.nodes_listening e with
        | none => rw [hL] at hs2; cases hs2
        | some s1 =>
          rw [hL] at hs2
          have hs2b : s1.erase i = s2 := by simpa using hs2
          rw [← hs2b]
          exact Finset.not_mem_erase i s1
      · rw [if_neg he] at hs2
        intro hi
        obtain ⟨nt2, hnt2, he2⟩ := (hcons e i).mp ⟨s2, hs2, hi⟩
        rw [hnt] at hnt2
        injection hnt2 with h2
        subst h2
        exact he he2
    have f1 : Consistent d1 := by
      intro e j
      constructor
      · rintro ⟨s2, hs2, hj⟩
        by_cases hji : j = i
        · subst hji
          exact absurd hj (f2 e s2 hs2)
        · obtain ⟨s1, hs1, hsub⟩ := f3 e s2 hs2
          obtain ⟨nt2, hnt2, he2⟩ := (hcons e j).mp ⟨s1, hs1, hsub hj⟩
          refine ⟨nt2, ?_, he2⟩
          rw [hd1D, if_neg hji]
          exact hnt2
      · rintro ⟨nt2, hnt2, he2⟩
        by_cases hji : j = i
        · subst hji
          rw [hd1D, if_pos rfl] at hnt2
          injection hnt2 with h2
          rw [← h2, setListeners_empty_listeners] at he2
          exact absurd he2 (Finset.not_mem_empty e)
        · rw [hd1D, if_neg hji] at hnt2
          obtain ⟨s1, hs1, hj1⟩ := (hcons e j).mpr ⟨nt2, hnt2, he2⟩
          by_cases he : e ∈ nt.listeners
          · refine ⟨s1.erase i, ?_, Finset.mem_erase_of_ne_of_mem hji hj1⟩
            rw [hd1L, if_pos he, hs1]
            rfl
          · refine ⟨s1, ?_, hj1⟩
            rw [hd1L, if_neg he]
            exact hs1
    obtain ⟨g1, g2, g3, g4, g5, g6, g7⟩ :=
      mark_parent_match_fields d1 (d1.parentOf i)
    set d2 : RealDom := (match d1.parentOf i with
      | some p => d1.mark_child_changed p
      | none => d1) with hd2def
    have hcs_nd : (idsF cs).Nodup := by
      have := hnd
      rw [ids_node, List.nodup_cons] at this
      exact this.2
    have hcs_data : ∀ j ∈ idsF cs, (d2.node_data j).isSome := by
      intro j hj
      have hji : ¬ j = i := fun h => hi_not_cs (h ▸ hj)
      rw [g1, hd1D, if_neg hji]
      exact hdata j (by simp [ids_node, hj])
    have hcs_cons : Consistent d2 := consistent_congr d1 d2 g2 g1 f1
    obtain ⟨d3, tr1, hrl, hOut, hdet, hpairsF⟩ :=
      removeList_spec cs d2 hcs_nd hcs_data hcs_cons
    obtain ⟨oA, oB, oC, oD, oE, oRT, oDT, ⟨oN1, oN2, oN3⟩, oH⟩ := hOut
    refine ⟨d3.detachSingle i,
      ((List.range d1.num_watchers).map (fun w => Event.onRemoved w i)) ++
        tr1 ++ [Event.detached i], ?_, ?_, ?_, ?_⟩
    · show removeSub (RTree.node i cs) d = _
      rw [hd2def, hd1def] at hrl
      simp only [removeSub, hnt, hpurge, hrl, hd1def]
    · rw [ids_node]
      refine ⟨?_, ?_, ?_, ?_, ?_, ?_, ?_, ⟨?_, ?_, ?_⟩, ?_⟩
      · intro j hj
        rcases List.mem_cons.mp hj with hji | hjc
        · subst hji
          simp [RealDom.detachSingle]
        · have hji : ¬ j = i := fun h => hi_not_cs (h ▸ hjc)
          show (if j = i then none else d3.node_data j) = none
          rw [if_neg hji]
          exact oA j hjc
      · intro j hj
        have hji : ¬ j = i := fun h => hj (by rw [h]; exact List.mem_cons_self i _)
        have hjc : j ∉ idsF cs := fun h => hj (List.mem_cons_of_mem i h)
        show (if j = i then none else d3.node_data j) = d.node_data j
        rw [if_neg hji, oB j hjc, g1, hd1D, if_neg hji]
      · intro e s2 hs2
        obtain ⟨sm, hsm, hsub⟩ := oC e s2 hs2
        rw [g2] at hsm
        obtain ⟨s1, hs1, hsub1⟩ := f3 e sm hsm
        exact ⟨s1, hs1, fun x hx => hsub1 (hsub hx)⟩
      · intro e s2 hs2 x hx
        rcases List.mem_cons.mp hx with hxi | hxc
        · subst hxi
          obtain ⟨sm, hsm, hsub⟩ := oC e s2 hs2
          rw [g2] at hsm
          exact fun hmem => f2 e sm hsm (hsub hmem)
        · exact oD e s2 hs2 x hxc
      · intro e j
        constructor
        · rintro ⟨s2, hs2, hj⟩
          by_cases hji : j = i
          · subst hji
            obtain ⟨sm, hsm, hsub⟩ := oC e s2 hs2
            rw [g2] at hsm
            exact absurd (hsub hj) (f2 e sm hsm)
          · obtain ⟨nt2, hnt2, he2⟩ := (oE e j).mp ⟨s2, hs2, hj⟩
            refine ⟨nt2, ?_, he2⟩
            show (if j = i then none else d3.node_data j) = some nt2
            rw [if_neg hji]
            exact hnt2
        · rintro ⟨nt2, hnt2, he2⟩
          by_cases hji : j = i
          · subst hji
            rw [show (d3.detachSingle j).node_data j = none by
              simp [RealDom.detachSingle]] at hnt2
            cases hnt2
          · rw [show (d3.detachSingle i).node_data j =
                (if j = i then none else d3.node_data j) from rfl,
              if_neg hji] at hnt2
            exact (oE e j).mpr ⟨nt2, hnt2, he2⟩
      · show pruneT [i] d3.root_tree = pruneT (i :: idsF cs) d.root_tree
        rw [oRT, g3]
        show pruneT [i] (pruneT (idsF cs) d1.root_tree) = _
        rw [pruneT_pruneT]
        refine pruneT_congr _ _ _ ?_
        intro j
        simp [Or.comm]
      · show pruneF [i] d3.detached = pruneF (i :: idsF cs) d.detached
        rw [oDT, g4]
        show pruneF [i] (pruneF (idsF cs) d1.detached) = _
        rw [pruneF_pruneF]
        refine pruneF_congr _ _ _ ?_
        intro j
        simp [Or.comm]
      · show d3.next_id = d.next_id
        rw [oN1, g5]
      · show d3.num_watchers = d.num_watchers
        rw [oN2, g6]
      · show d3.passes = d.passes
        rw [oN3, g7]
      · intro x hx w hw
        rcases List.mem_cons.mp hx with hxi | hxc
        · rw [hxi]
          have h1 : [Event.onRemoved w i] ++ [Event.detached i] =
              [Event.onRemoved w i, Event.detached i] := rfl
          rw [← h1]
          refine List.Sublist.append ?_ (List.Sublist.refl _)
          rw [List.singleton_sublist]
          refine List.mem_append_left _ ?_
          rw [List.mem_map]
          exact ⟨w, List.mem_range.mpr hw, rfl⟩
        · have hw2 : w < d2.num_watchers := by rw [g6]; exact hw
          have hs : List.Sublist [Event.onRemoved w x, Event.detached x] tr1 :=
            oH x hxc w hw2
          refine hs.trans ?_
          refine (List.sublist_append_right
            ((List.range d1.num_watchers).map (fun w => Event.onRemoved w i))
            tr1).trans ?_
          exact List.sublist_append_left _ _
    · rw [List.getLast?_concat]
      simp [RTree.rootId]
    · intro pc hpc
      rw [show childPairs (RTree.node i cs) =
          cs.map (fun c => (i, c.rootId)) ++ childPairsF cs by
        simp [childPairs]] at hpc
      rcases List.mem_append.mp hpc with hp1 | hp2
      · obtain ⟨c, hc, hceq⟩ := List.mem_map.mp hp1
        rw [← hceq]
        show List.Sublist ([Event.detached c.rootId] ++ [Event.detached i]) _
        refine List.Sublist.append ?_ (List.Sublist.refl _)
        rw [List.singleton_sublist]
        exact List.mem_append_right _ (hdet c hc)
      · refine (hpairsF pc hp2).trans ?_
        refine (List.sublist_append_right
          ((List.range d1.num_watchers).map (fun w => Event.onRemoved w i))
          tr1).trans ?_
        exact List.sublist_append_left _ _
termination_by sizeOf t

/-- Master lemma for `removeList` on sibling subtrees, removed left to
right. -/
theorem removeList_spec (cs : List RTree) (d : RealDom)
    (hnd : (idsF cs).Nodup)
    (hdata : ∀ i ∈ idsF cs, (d.node_data i).isSome)
    (hcons : Consistent d) :
    ∃ d2 tr, removeList cs d = some (d2, tr) ∧
      RemoveOutcome d (idsF cs) d2 tr ∧
      (∀ c ∈ cs, Event.detached c.rootId ∈ tr) ∧
      (∀ pc ∈ childPairsF cs,
        List.Sublist [Event.detached pc.2, Event.detached pc.1] tr) := by
  match cs with
  | [] =>
    refine ⟨d, [], rfl, ?_, by simp, by simp [childPairsF]⟩
    refine ⟨by simp [idsF], fun j _ => rfl, fun e s2 h => ⟨s2, h, fun x hx => hx⟩,
      by simp [idsF], hcons, ?_, ?_, ⟨rfl, rfl, rfl⟩, by simp [idsF]⟩
    · rw [pruneT_of_disjoint]
      intro j _
      simp [idsF]
    · rw [pruneF_of_disjoint]
      intro j _
      simp [idsF]
  | c :: rest =>
    have hnd_c : c.ids.Nodup := by
      rw [idsF_cons, List.nodup_append] at hnd
      exact hnd.1
    have hnd_r : (idsF rest).Nodup := by
      rw [idsF_cons, List.nodup_append] at hnd
      exact hnd.2.1
    have hdisj : c.ids.Disjoint (idsF rest) := by
      rw [idsF_cons, List.nodup_append] at hnd
      exact hnd.2.2
    have hdata_c : ∀ i ∈ c.ids, (d.node_data i).isSome := by
      intro i hi
      exact hdata i (by rw [idsF_cons]; exact List.mem_append_left _ hi)
    obtain ⟨d1, tr1, hrm, hOut1, hlast1, hpairs1⟩ :=
      removeSub_spec c d hnd_c hdata_c hcons
    obtain ⟨aA, aB, aC, aD, aE, aRT, aDT, ⟨aN1, aN2, aN3⟩, aH⟩ := hOut1
    have hdata_r : ∀ i ∈ idsF rest, (d1.node_data i).isSome := by
      intro i hi
      have hic : i ∉ c.ids := fun h => hdisj h hi
      rw [aB i hic]
      exact hdata i (by rw [idsF_cons]; exact List.mem_append_right _ hi)
    obtain ⟨d2, tr2, hrl, hOut2, hdet2, hpairs2⟩ :=
      removeList_spec rest d1 hnd_r hdata_r aE
    obtain ⟨bA, bB, bC, bD, bE, bRT, bDT, ⟨bN1, bN2, bN3⟩, bH⟩ := hOut2
    refine ⟨d2, tr1 ++ tr2, ?_, ?_, ?_, ?_⟩
    · simp only [removeList, hrm, hrl]
    · rw [idsF_cons]
      refine ⟨?_, ?_, ?_, ?_, bE, ?_, ?_, ⟨?_, ?_, ?_⟩, ?_⟩
      · intro j hj
        rcases List.mem_append.mp hj with hjc | hjr
        · have hjr2 : j ∉ idsF rest := fun h => hdisj hjc h
          rw [bB j hjr2]
          exact aA j hjc
        · exact bA j hjr
      · intro j hj
        have hjc : j ∉ c.ids := fun h => hj (List.mem_append_left _ h)
        have hjr : j ∉ idsF rest := fun h => hj (List.mem_append_right _ h)
        rw [bB j hjr, aB j hjc]
      · intro e s2 hs2
        obtain ⟨sm, hsm, hsub⟩ := bC e s2 hs2
        obtain ⟨s1, hs1, hsub1⟩ := aC e sm hsm
        exact ⟨s1, hs1, fun x hx => hsub1 (hsub hx)⟩
      · intro e s2 hs2 x hx
        rcases List.mem_append.mp hx with hxc | hxr
        · obtain ⟨sm, hsm, hsub⟩ := bC e s2 hs2
          exact fun hmem => aD e sm hsm x hxc (hsub hmem)
        · exact bD e s2 hs2 x hxr
      · rw [bRT, aRT, pruneT_pruneT]
      · rw [bDT, aDT, pruneF_pruneF]
      · rw [bN1, aN1]
      · rw [bN2, aN2]
      · rw [bN3, aN3]
      · intro x hx w hw
        rcases List.mem_append.mp hx with hxc | hxr
        · exact (aH x hxc w hw).trans (List.sublist_append_left tr1 tr2)
        · have hw2 : w < d1.num_watchers := by rw [aN2]; exact hw
          exact (bH x hxr w hw2).trans (List.sublist_append_right tr1 tr2)
    · intro x hx
      rcases List.mem_cons.mp hx with hxc | hxr
      · subst hxc
        have hmem : Event.detached x.rootId ∈ tr1 :=
          List.mem_of_mem_getLast? hlast1
        exact List.mem_append_left tr2 hmem
      · exact List.mem_append_right tr1 (hdet2 x hxr)
    · intro pc hpc
      rw [show childPairsF (c :: rest) = childPairs c ++ childPairsF rest by
        simp [childPairsF]] at hpc
      rcases List.mem_append.mp hpc with hp1 | hp2
      · exact (hpairs1 pc hp1).trans (List.sublist_append_left tr1 tr2)
      · exact (hpairs2 pc hp2).trans (List.sublist_append_right tr1 tr2)
termination_by sizeOf cs

end

theorem findF_rootId (i : Nat) (f : List RTree) (r : RTree)
    (h : findF i f = some r) : r.rootId = i := by
  match f with
  | [] => simp [findF] at h
  | .node j cs :: ts =>
    rw [findF] at h
    by_cases hj : j = i
    · rw [findT, if_pos hj] at h
      simp only [Option.some.injEq] at h
      rw [← h, RTree.rootId, hj]
    · rw [findT, if_neg hj] at h
      cases hcs : findF i cs with
      | some r2 =>
        rw [hcs] at h
        simp only [Option.some.injEq] at h
        rw [← h]
        exact findF_rootId i cs r2 hcs
      | none =>
        rw [hcs] at h
        exact findF_rootId i ts r h
termination_by sizeOf f

theorem findT_rootId (i : Nat) (t r : RTree) (h : findT i t = some r) :
    r.rootId = i := by
  cases t with
  | node j cs =>
    rw [findT] at h
    by_cases hj : j = i
    · rw [if_pos hj] at h
      simp only [Option.some.injEq] at h
      rw [← h, RTree.rootId, hj]
    · rw [if_neg hj] at h
      exact findF_rootId i cs r h

theorem subtree_rootId (d : RealDom) (n : Nat) (t : RTree)
    (h : d.subtree n = some t) : t.rootId = n := by
  rw [RealDom.subtree] at h
  cases hrt : findT n d.root_tree with
  | some r =>
    rw [hrt] at h
    simp only [Option.some.injEq] at h
    rw [← h]
    exact findT_rootId n d.root_tree r hrt
  | none =>
    rw [hrt] at h
    exact findF_rootId n d.detached t h

theorem findF_ids_subset (i : Nat) (f : List RTree) (r : RTree)
    (h : findF i f = some r) : ∀ j ∈ r.ids, j ∈ idsF f := by
  match f with
  | [] => simp [findF] at h
  | .node j0 cs :: ts =>
    rw [findF] at h
    by_cases hj : j0 = i
    · rw [findT, if_pos hj] at h
      simp only [Option.some.injEq] at h
      intro j hjr
      rw [idsF_cons]
      exact List.mem_append_left _ (h ▸ hjr)
    · rw [findT, if_neg hj] at h
      cases hcs : findF i cs with
      | some r2 =>
        rw [hcs] at h
        simp only [Option.some.injEq] at h
        intro j hjr
        rw [idsF_cons, ids_node]
        have := findF_ids_subset i cs r2 hcs j (h ▸ hjr)
        exact List.mem_append_left _ (List.mem_cons_of_mem j0 this)
      | none =>
        rw [hcs] at h
        intro j hjr
        rw [idsF_cons]
        exact List.mem_append_right _ (findF_ids_subset i ts r h j hjr)
termination_by sizeOf f

theorem findT_ids_subset (i : Nat) (t r : RTree) (h : findT i t = some r) :
    ∀ j ∈ r.ids, j ∈ t.ids := by
  cases t with
  | node j0 cs =>
    rw [findT] at h
    by_cases hj : j0 = i
    · rw [if_pos hj] at h
      simp only [Option.some.injEq] at h
      intro j hjr
      exact h ▸ hjr
    · rw [if_neg hj] at h
      intro j hjr
      rw [ids_node]
      exact List.mem_cons_of_mem j0 (findF_ids_subset i cs r h j hjr)

theorem subtree_ids_subset (d : RealDom) (n : Nat) (t : RTree)
    (h : d.subtree n = some t) : ∀ j ∈ t.ids, j ∈ d.allIds := by
  rw [RealDom.subtree] at h
  intro j hj
  rw [RealDom.allIds]
  cases hrt : findT n d.root_tree with
  | some r =>
    rw [hrt] at h
    simp only [Option.some.injEq] at h
    exact List.mem_append_left _ (findT_ids_subset n d.root_tree r hrt j (h ▸ hj))
  | none =>
    rw [hrt] at h
    exact List.mem_append_right _ (findF_ids_subset n d.detached t h j hj)

/-- C7: for a non-root node, `remove` succeeds, after it the listener index
contains no entry for any node of the removed subtree, every watcher's
removed notification for a node of the subtree fires strictly before that
node's detachment from storage, the removed node itself is detached last, and
every child is detached before its parent (depth-first removal). -/
theorem c7_remove_purges_index_and_detaches_last
    (d : RealDom) (n : Nat) (t : RTree)
    (hsub : d.subtree n = some t)
    (hroot : n ≠ d.root_tree.rootId)
    (hnd : t.ids.Nodup)
    (hdata : ∀ i ∈ t.ids, (d.node_data i).isSome)
    (hcons : Consistent d) :
    ∃ d2 tr, d.remove n = some (d2, tr) ∧
      (∀ e s, d2.nodes_listening e = some s → ∀ i ∈ t.ids, i ∉ s) ∧
      (∀ i ∈ t.ids, ∀ w, w < d.num_watchers →
        List.Sublist [Event.onRemoved w i, Event.detached i] tr) ∧
      tr.getLast? = some (Event.detached n) ∧
      (∀ pc ∈ childPairs t,
        List.Sublist [Event.detached pc.2, Event.detached pc.1] tr) := by
  obtain ⟨d2, tr, heq, hOut, hlast, hpairs⟩ := removeSub_spec t d hnd hdata hcons
  obtain ⟨_, _, _, hD, _, _, _, _, hH⟩ := hOut
  refine ⟨d2, tr, ?_, hD, hH, ?_, hpairs⟩
  · rw [RealDom.remove, hsub]
    exact heq
  · rw [hlast, subtree_rootId d n t hsub]

/-- The sample dom's listener index and listener sets are consistent. -/
theorem sampleDom_consistent : Consistent sampleDom := by
  have hL : ∀ x, sampleDom.nodes_listening x =
      if x = "click" then some {1} else none := fun x => rfl
  have hD : ∀ j, sampleDom.node_data j =
      if j = 0 then some (.element "Root" (some "Root") [] ∅)
      else if j = 1 then some sampleChild else none := fun j => rfl
  intro e i
  simp only [hL, hD]
  by_cases he : e = "click" <;> by_cases hi0 : i = 0 <;> by_cases hi1 : i = 1 <;>
    simp_all [sampleChild, NodeType.listeners]

/-- Witness for C7 at a concrete input: removing node 1 (an attached Element
listening to "click") from the sample dom. -/
theorem c7_witness :
    (sampleDom.subtree 1 = some (RTree.node 1 [])) ∧
    ((1 : Nat) ≠ sampleDom.root_tree.rootId) ∧
    ((RTree.node 1 []).ids.Nodup) ∧
    (∀ i ∈ (RTree.node 1 []).ids, (sampleDom.node_data i).isSome) ∧
    Consistent sampleDom ∧
    (∃ d2 tr, sampleDom.remove 1 = some (d2, tr) ∧
      (∀ e s, d2.nodes_listening e = some s →
        ∀ i ∈ (RTree.node 1 []).ids, i ∉ s) ∧
      (∀ i ∈ (RTree.node 1 []).ids, ∀ w, w < sampleDom.num_watchers →
        List.Sublist [Event.onRemoved w i, Event.detached i] tr) ∧
      tr.getLast? = some (Event.detached 1) ∧
      (∀ pc ∈ childPairs (RTree.node 1 []),
        List.Sublist [Event.detached pc.2, Event.detached pc.1] tr)) := by
  have h1 : sampleDom.subtree 1 = some (RTree.node 1 []) := by
    simp [RealDom.subtree, sampleDom, findT, findF]
  have h2 : (1 : Nat) ≠ sampleDom.root_tree.rootId := by
    simp [sampleDom, RTree.rootId]
  have h3 : (RTree.node 1 []).ids.Nodup := by
    simp [RTree.ids, idsF]
  have h4 : ∀ i ∈ (RTree.node 1 []).ids, (sampleDom.node_data i).isSome := by
    intro i hi
    simp only [RTree.ids, idsF] at hi
    simp only [List.mem_singleton] at hi
    subst hi
    simp [sampleDom]
  exact ⟨h1, h2, h3, h4, sampleDom_consistent,
    c7_remove_purges_index_and_detaches_last sampleDom 1 (RTree.node 1 [])
      h1 h2 h3 h4 sampleDom_consistent⟩

theorem setListeners_listeners_of_has (nt : NodeType) (ls : Finset String)
    (h : nt.hasListenerSet = true) : (nt.setListeners ls).listeners = ls := by
  cases nt <;> simp_all [NodeType.setListeners, NodeType.listeners,
    NodeType.hasListenerSet]

/-- `add_event_listener` preserves listener-index consistency. -/
theorem add_event_listener_consistent (d : RealDom) (id : Nat) (event : String)
    (d2 : RealDom) (hcons : Consistent d)
    (hop : d.add_event_listener id event = some d2) : Consistent d2 := by
  cases hnt : d.node_data id with
  | none => rw [RealDom.add_event_listener, hnt] at hop; cases hop
  | some nt =>
    simp only [RealDom.add_event_listener, hnt] at hop
    by_cases hls : nt.hasListenerSet
    · rw [if_pos hls] at hop
      simp only [Option.some.injEq] at hop
      have hL2 : ∀ x, d2.nodes_listening x =
          if x = event then some (insert id ((d.nodes_listening event).getD ∅))
          else d.nodes_listening x := by
        intro x
        rw [← hop]
        rfl
      have hD2 : ∀ j, d2.node_data j =
          if j = id then some (nt.setListeners (insert event nt.listeners))
          else d.node_data j := by
        intro j
        rw [← hop]
        rfl
      intro e j
      simp only [hL2, hD2]
      by_cases he : e = event <;> by_cases hj : j = id
      · simp only [if_pos he, if_pos hj]
        constructor
        · intro _
          refine ⟨nt.setListeners (insert event nt.listeners), rfl, ?_⟩
          rw [setListeners_listeners_of_has nt _ hls, he]
          exact Finset.mem_insert_self event _
        · intro _
          refine ⟨insert id ((d.nodes_listening event).getD ∅), rfl, ?_⟩
          rw [hj]
          exact Finset.mem_insert_self id _
      · simp only [if_pos he, if_neg hj]
        constructor
        · rintro ⟨s, hs, hjs⟩
          simp only [Option.some.injEq] at hs
          rw [← hs] at hjs
          rcases Finset.mem_insert.mp hjs with h1 | h2
          · exact absurd h1 hj
          · cases hLe : d.nodes_listening event with
            | none => rw [hLe] at h2; simp at h2
            | some s0 =>
              rw [hLe] at h2
              simp only [Option.getD_some] at h2
              rw [he]
              exact (hcons event j).mp ⟨s0, hLe, h2⟩
        · rintro ⟨nt2, hnt2, he2⟩
          rw [he] at he2
          obtain ⟨s0, hs0, hjs0⟩ := (hcons event j).mpr ⟨nt2, hnt2, he2⟩
          refine ⟨insert id ((d.nodes_listening event).getD ∅), rfl, ?_⟩
          rw [hs0]
          simp only [Option.getD_some]
          exact Finset.mem_insert_of_mem hjs0
      · simp only [if_neg he, if_pos hj]
        constructor
        · rintro ⟨s, hs, hjs⟩
          obtain ⟨nt2, hnt2, he2⟩ := (hcons e j).mp ⟨s, hs, hjs⟩
          rw [hj, hnt] at hnt2
          simp only [Option.some.injEq] at hnt2
          refine ⟨nt.setListeners (insert event nt.listeners), rfl, ?_⟩
          rw [setListeners_listeners_of_has nt _ hls]
          exact Finset.mem_insert_of_mem (hnt2 ▸ he2)
        · rintro ⟨nt2, hnt2, he2⟩
          simp only [Option.some.injEq] at hnt2
          rw [← hnt2, setListeners_listeners_of_has nt _ hls] at he2
          rcases Finset.mem_insert.mp he2 with h1 | h2
          · exact absurd h1 he
          · refine (hcons e j).mpr ⟨nt, ?_, h2⟩
            rw [hj]
            exact hnt
      · simp only [if_neg he, if_neg hj]
        exact hcons e j
    · rw [if_neg hls] at hop
      simp only [Option.some.injEq] at hop
      rw [← hop]
      exact hcons

/-- `remove_event_listener`, when it completes without panicking, preserves
listener-index consistency. -/
theorem remove_event_listener_consistent (d : RealDom) (id : Nat)
    (event : String) (d2 : RealDom) (hcons : Consistent d)
    (hop : d.remove_event_listener id event = some d2) : Consistent d2 := by
  cases hnt : d.node_data id with
  | none => rw [RealDom.remove_event_listener, hnt] at hop; cases hop
  | some nt =>
    simp only [RealDom.remove_event_listener, hnt] at hop
    by_cases hls : nt.hasListenerSet
    · rw [if_pos hls] at hop
      cases hL : d.nodes_listening event with
      | none =>
        rw [show (d.mark_dirty id listenersMask).nodes_listening event =
          d.nodes_listening event from rfl, hL] at hop
        cases hop
      | some s0 =>
        rw [show (d.mark_dirty id listenersMask).nodes_listening event =
          d.nodes_listening event from rfl, hL] at hop
        simp only [Option.some.injEq] at hop
        have hL2 : ∀ x, d2.nodes_listening x =
            if x = event then some (s0.erase id) else d.nodes_listening x := by
          intro x
          rw [← hop]
          rfl
        have hD2 : ∀ j, d2.node_data j =
            if j = id then some (nt.setListeners (nt.listeners.erase event))
            else d.node_data j := by
          intro j
          rw [← hop]
          rfl
        intro e j
        simp only [hL2, hD2]
        by_cases he : e = event <;> by_cases hj : j = id
        · simp only [if_pos he, if_pos hj]
          constructor
          · rintro ⟨s, hs, hjs⟩
            simp only [Option.some.injEq] at hs
            rw [← hs, hj] at hjs
            exact absurd hjs (Finset.not_mem_erase id s0)
          · rintro ⟨nt2, hnt2, he2⟩
            simp only [Option.some.injEq] at hnt2
            rw [← hnt2, setListeners_listeners_of_has nt _ hls, he] at he2
            exact absurd he2 (Finset.not_mem_erase event nt.listeners)
        · simp only [if_pos he, if_neg hj]
          constructor
          · rintro ⟨s, hs, hjs⟩
            simp only [Option.some.injEq] at hs
            rw [← hs] at hjs
            rw [he]
            exact (hcons event j).mp ⟨s0, hL, Finset.mem_of_mem_erase hjs⟩
          · rintro ⟨nt2, hnt2, he2⟩
            rw [he] at he2
            obtain ⟨s1, hs1, hjs1⟩ := (hcons event j).mpr ⟨nt2, hnt2, he2⟩
            rw [hL] at hs1
            simp only [Option.some.injEq] at hs1
            refine ⟨s0.erase id, rfl, ?_⟩
            exact Finset.mem_erase_of_ne_of_mem hj (hs1 ▸ hjs1)
        · simp only [if_neg he, if_pos hj]
          constructor
          · rintro ⟨s, hs, hjs⟩
            obtain ⟨nt2, hnt2, he2⟩ := (hcons e j).mp ⟨s, hs, hjs⟩
            rw [hj, hnt] at hnt2
            simp only [Option.some.injEq] at hnt2
            refine ⟨nt.setListeners (nt.listeners.erase event), rfl, ?_⟩
            rw [setListeners_listeners_of_has nt _ hls]
            exact Finset.mem_erase_of_ne_of_mem he (hnt2 ▸ he2)
          · rintro ⟨nt2, hnt2, he2⟩
            simp only [Option.some.injEq] at hnt2
            rw [← hnt2, setListeners_listeners_of_has nt _ hls] at he2
            refine (hcons e j).mpr ⟨nt, ?_, Finset.mem_of_mem_erase he2⟩
            rw [hj]
            exact hnt
        · simp only [if_neg he, if_neg hj]
          exact hcons e j
    · rw [if_neg hls] at hop
      simp only [Option.some.injEq] at hop
      rw [← hop]
      exact hcons

/-- C2 (amended): listener-index consistency is preserved by
`add_event_listener`, by `remove_event_listener` whenever it completes
without panicking, and by `remove`; `clone_node` does not preserve it in
general (see the counterexample), because the clone's copied listener sets
are never entered into the index. -/
theorem c2_consistency_preserved_by_listener_ops_and_remove :
    (∀ (d : RealDom) (id : Nat) (e : String) (d2 : RealDom),
      Consistent d → d.add_event_listener id e = some d2 → Consistent d2) ∧
    (∀ (d : RealDom) (id : Nat) (e : String) (d2 : RealDom),
      Consistent d → d.remove_event_listener id e = some d2 → Consistent d2) ∧
    (∀ (d : RealDom) (id : Nat) (t : RTree) (d2 : RealDom) (tr : List Event),
      t.ids.Nodup → (∀ i ∈ t.ids, (d.node_data i).isSome) → Consistent d →
      d.subtree id = some t → d.remove id = some (d2, tr) → Consistent d2) := by
  refine ⟨?_, ?_, ?_⟩
  · intro d id e d2 hcons hop
    exact add_event_listener_consistent d id e d2 hcons hop
  · intro d id e d2 hcons hop
    exact remove_event_listener_consistent d id e d2 hcons hop
  · intro d id t d2 tr hnd hdata hcons hsub hrem
    obtain ⟨d2b, trb, heq, hOut, _, _⟩ := removeSub_spec t d hnd hdata hcons
    rw [RealDom.remove, hsub] at hrem
    simp only [heq] at hrem
    simp only [Option.some.injEq, Prod.mk.injEq] at hrem
    obtain ⟨h1, _⟩ := hrem
    rw [← h1]
    exact hOut.2.2.2.2.1

/-- Witness for the amended C2 at concrete inputs on the sample dom. -/
theorem c2_witness :
    Consistent sampleDom ∧
    (sampleDom.add_event_listener 1 "hover" = some addListenerResultDom) ∧
    Consistent addListenerResultDom ∧
    (sampleDom.remove_event_listener 1 "click" = some removeListenerResultDom) ∧
    Consistent removeListenerResultDom ∧
    (∃ d2 tr, sampleDom.remove 1 = some (d2, tr) ∧ Consistent d2) := by
  have hadd : sampleDom.add_event_listener 1 "hover" =
      some addListenerResultDom := rfl
  have hrem : sampleDom.remove_event_listener 1 "click" =
      some removeListenerResultDom := rfl
  have h1 : sampleDom.subtree 1 = some (RTree.node 1 []) := by
    simp [RealDom.subtree, sampleDom, findT, findF]
  have h3 : (RTree.node 1 []).ids.Nodup := by simp [RTree.ids, idsF]
  have h4 : ∀ i ∈ (RTree.node 1 []).ids, (sampleDom.node_data i).isSome := by
    intro i hi
    simp only [RTree.ids, idsF] at hi
    simp only [List.mem_singleton] at hi
    subst hi
    simp [sampleDom]
  obtain ⟨d2, tr, heq, _, _, _⟩ :=
    removeSub_spec (RTree.node 1 []) sampleDom h3 h4 sampleDom_consistent
  have hremove : sampleDom.remove 1 = some (d2, tr) := by
    rw [RealDom.remove, h1]
    exact heq
  refine ⟨sampleDom_consistent, hadd, ?_, hrem, ?_, d2, tr, hremove, ?_⟩
  · exact c2_consistency_preserved_by_listener_ops_and_remove.1 sampleDom 1
      "hover" addListenerResultDom sampleDom_consistent hadd
  · exact c2_consistency_preserved_by_listener_ops_and_remove.2.1 sampleDom 1
      "click" removeListenerResultDom sampleDom_consistent hrem
  · exact c2_consistency_preserved_by_listener_ops_and_remove.2.2 sampleDom 1
      (RTree.node 1 []) d2 tr h3 h4 sampleDom_consistent h1 hremove

theorem idsF_append (f1 f2 : List RTree) :
    idsF (f1 ++ f2) = idsF f1 ++ idsF f2 := by
  match f1 with
  | [] => simp [idsF]
  | t :: ts => simp [idsF_cons, idsF_append ts f2]
termination_by sizeOf f1

theorem pruneF_append (rm : List Nat) (f1 f2 : List RTree) :
    pruneF rm (f1 ++ f2) = pruneF rm f1 ++ pruneF rm f2 := by
  match f1 with
  | [] => simp [pruneF]
  | .node j cs :: ts =>
    by_cases hj : j ∈ rm <;> simp [pruneF, hj, pruneF_append rm ts f2]
termination_by sizeOf f1

theorem attachF_append (p : Nat) (ex : RTree) (f1 f2 : List RTree) :
    attachF p ex (f1 ++ f2) = attachF p ex f1 ++ attachF p ex f2 := by
  match f1 with
  | [] => simp [attachF]
  | t :: ts => simp [attachF, attachF_append p ex ts f2]
termination_by sizeOf f1

theorem findF_append_of_none (i : Nat) (f1 f2 : List RTree)
    (h : findF i f1 = none) : findF i (f1 ++ f2) = findF i f2 := by
  match f1 with
  | [] => simp [findF]
  | t :: ts =>
    rw [findF] at h
    cases hft : findT i t with
    | some r => rw [hft] at h; cases h
    | none =>
      rw [hft] at h
      show findF i (t :: (ts ++ f2)) = findF i f2
      rw [findF, hft]
      exact findF_append_of_none i ts f2 h
termination_by sizeOf f1

theorem mem_idsF_of_mem (c : RTree) (cs : List RTree) (hc : c ∈ cs)
    (j : Nat) (hj : j ∈ c.ids) : j ∈ idsF cs := by
  match cs with
  | [] => cases hc
  | t :: ts =>
    rw [idsF_cons]
    rcases List.mem_cons.mp hc with h1 | h2
    · exact List.mem_append_left _ (h1 ▸ hj)
    · exact List.mem_append_right _ (mem_idsF_of_mem c ts h2 j hj)
termination_by sizeOf cs

/-- Content matching is stable under changes to the content maps outside the
two subtrees. -/
theorem ContentMatch.mono (f g f2 g2 : Nat → Option NodeType) :
    ∀ t t2 : RTree, ContentMatch f g t t2 →
      (∀ j ∈ t.ids, f2 j = f j) → (∀ j ∈ t2.ids, g2 j = g j) →
      ContentMatch f2 g2 t t2 := by
  intro t
  induction t using RTree.inductionOn with
  | h i cs ih =>
    intro t2 hmatch hf hg
    cases t2 with
    | node i2 cs2 =>
      rw [ContentMatch] at hmatch ⊢
      obtain ⟨⟨nt, hfi, hgi⟩, hlen, hps⟩ := hmatch
      refine ⟨⟨nt, ?_, ?_⟩, hlen, ?_⟩
      · rw [hf i (by simp [ids_node])]
        exact hfi
      · rw [hg i2 (by simp [ids_node])]
        exact hgi
      · intro p hp
        have hp1 := (List.of_mem_zip hp).1
        have hp2 := (List.of_mem_zip hp).2
        refine ih p.1 hp1 p.2 (hps p hp) ?_ ?_
        · intro j hj
          refine hf j ?_
          rw [ids_node]
          exact List.mem_cons_of_mem i (mem_idsF_of_mem p.1 cs hp1 j hj)
        · intro j hj
          refine hg j ?_
          rw [ids_node]
          exact List.mem_cons_of_mem i2 (mem_idsF_of_mem p.2 cs2 hp2 j hj)

/-- Computation of `add_child` in the configuration produced during cloning:
the child is the freshly finished clone subtree sitting at the end of the
detached forest, the parent is the (also detached) node under construction,
and every identity elsewhere is smaller than the child's root identity. -/
theorem add_child_clone_step (d : RealDom) (nid cid : Nat)
    (D acc : List RTree) (tc : RTree)
    (hdet : d.detached = (D ++ [RTree.node nid acc]) ++ [tc])
    (hroot_b : ∀ j ∈ d.root_tree.ids, j < cid)
    (hD_b : ∀ j ∈ idsF D, j < cid)
    (hnid : nid < cid)
    (hacc : ∀ j ∈ idsF acc, j < cid)
    (htc : tc.rootId = cid)
    (hnotroot : nid ∉ d.root_tree.ids)
    (hnotD : nid ∉ idsF D) :
    ∃ d2 ev, d.add_child nid cid = some (d2, ev) ∧
      d2.root_tree = d.root_tree ∧
      d2.detached = D ++ [RTree.node nid (acc ++ [tc])] ∧
      d2.node_data = d.node_data ∧
      d2.nodes_listening = d.nodes_listening ∧
      d2.next_id = d.next_id ∧ d2.num_watchers = d.num_watchers ∧
      d2.passes = d.passes := by
  obtain ⟨jc, csc⟩ := tc
  rw [RTree.rootId] at htc
  have htc2 : cid = jc := htc.symm
  subst htc2
  have hprefix_b : ∀ j ∈ idsF (D ++ [RTree.node nid acc]), j < cid := by
    intro j hj
    rw [idsF_append, idsF_cons, ids_node] at hj
    simp only [idsF, List.append_nil] at hj
    rcases List.mem_append.mp hj with h1 | h2
    · exact hD_b j h1
    · rcases List.mem_cons.mp h2 with h3 | h4
      · rw [h3]; exact hnid
      · exact hacc j h4
  have hfr : findT cid d.root_tree = none :=
    findT_of_not_mem cid d.root_tree
      (fun hmem => absurd (hroot_b cid hmem) (lt_irrefl cid))
  have hfp : findF cid (D ++ [RTree.node nid acc]) = none :=
    findF_of_not_mem cid _
      (fun hmem => absurd (hprefix_b cid hmem) (lt_irrefl cid))
  have hsub : d.subtree cid = some (RTree.node cid csc) := by
    rw [RealDom.subtree, hfr, hdet, findF_append_of_none cid _ _ hfp]
    rw [findF, findT, if_pos rfl]
  have hsub1 : ((d.mark_child_changed nid).mark_parent_added_or_removed
      cid).subtree cid = some (RTree.node cid csc) := hsub
  rw [RealDom.add_child]
  simp only [hsub1]
  have hprT : pruneT [cid] d.root_tree = d.root_tree :=
    pruneT_of_disjoint _ _ (fun j hj => by
      simp only [List.mem_singleton]
      exact fun he => absurd (he ▸ hroot_b j hj) (lt_irrefl cid))
  have hprF : pruneF [cid] d.detached = D ++ [RTree.node nid acc] := by
    rw [hdet, pruneF_append]
    rw [pruneF_of_disjoint _ _ (fun j hj => by
      simp only [List.mem_singleton]
      exact fun he => absurd (he ▸ hprefix_b j hj) (lt_irrefl cid))]
    rw [show pruneF [cid] [RTree.node cid csc] = [] by
      simp [pruneF]]
    simp
  have hfindnid : findF nid (D ++ [RTree.node nid acc]) =
      some (RTree.node nid acc) := by
    rw [findF_append_of_none nid _ _ (findF_of_not_mem nid D hnotD)]
    rw [findF, findT, if_pos rfl]
  have hsubnid : (({ (d.mark_child_changed nid).mark_parent_added_or_removed cid
      with root_tree := pruneT [cid] d.root_tree,
           detached := pruneF [cid] d.detached } : RealDom).subtree nid).isSome := by
    rw [RealDom.subtree]
    show (match findT nid (pruneT [cid] d.root_tree) with
      | some r => some r
      | none => findF nid (pruneF [cid] d.detached)).isSome
    rw [hprT, hprF, findT_of_not_mem nid d.root_tree hnotroot, hfindnid]
    rfl
  split_ifs with hcond
  · refine ⟨_, _, rfl, ?_, ?_, rfl, rfl, rfl, rfl, rfl⟩
    · show attachT nid (RTree.node cid csc) (pruneT [cid] d.root_tree) =
        d.root_tree
      rw [hprT]
      exact attachT_of_not_mem nid _ d.root_tree hnotroot
    · show attachF nid (RTree.node cid csc) (pruneF [cid] d.detached) =
        D ++ [RTree.node nid (acc ++ [RTree.node cid csc])]
      rw [hprF, attachF_append, attachF_of_not_mem nid _ D hnotD]
      simp [attachF, attachT]
  · exact absurd hsubnid hcond

mutual

/-- Master lemma for `cloneSub`: cloning a subtree whose identities all exist
and lie below the allocation counter succeeds, builds one fresh detached
subtree whose root is the next identity, copies content node-for-node
(listener sets included), and never touches the listener index or any
existing identity. -/
theorem cloneSub_spec (t : RTree) (d : RealDom)
    (hB : ∀ j ∈ d.allIds, j < d.next_id)
    (hT : ∀ j ∈ t.ids, j < d.next_id)
    (hDa : ∀ j ∈ t.ids, (d.node_data j).isSome) :
    ∃ nid d2 ev t2, cloneSub t d = some (nid, d2, ev) ∧
      nid = d.next_id ∧
      d2.root_tree = d.root_tree ∧
      d2.detached = d.detached ++ [t2] ∧
      t2.rootId = nid ∧
      d.next_id < d2.next_id ∧
      (∀ j ∈ t2.ids, d.next_id ≤ j ∧ j < d2.next_id) ∧
      (∀ j, j < d.next_id → d2.node_data j = d.node_data j) ∧
      d2.nodes_listening = d.nodes_listening ∧
      ContentMatch d.node_data d2.node_data t t2 ∧
      (d2.num_watchers = d.num_watchers ∧ d2.passes = d.passes) ∧
      (∀ j ∈ d2.allIds, j < d2.next_id) := by
  match t with
  | .node i cs =>
    have hmem_i : i ∈ (RTree.node i cs).ids := by simp [ids_node]
    obtain ⟨nt, hnt⟩ := Option.isSome_iff_exists.mp (hDa i hmem_i)
    set da : RealDom := { d with
      next_id := d.next_id + 1
      detached := d.detached ++ [.node d.next_id []]
      passes_updated := fun k =>
        if k = d.next_id then
          some (((d.passes_updated d.next_id).getD ∅) ∪
            (d.passes.map TypeErasedPass.this_type_id).toFinset)
        else d.passes_updated k
      node_data := fun k =>
        if k = d.next_id then some nt else d.node_data k } with hdadef
    have hcreate : d.create_node nt = (d.next_id, da,
        (List.range d.num_watchers).map (fun w => Event.onAdded w d.next_id)) := by
      rw [hdadef]
      rfl
    have hBa : ∀ j ∈ da.allIds, j < da.next_id := by
      intro j hj
      rw [RealDom.allIds] at hj
      rw [show da.detached = d.detached ++ [RTree.node d.next_id []] from rfl,
        show da.root_tree = d.root_tree from rfl] at hj
      rw [show da.next_id = d.next_id + 1 from rfl]
      rw [idsF_append, idsF_cons, ids_node] at hj
      simp only [idsF, List.append_nil, List.mem_append, List.mem_cons,
        List.not_mem_nil, or_false] at hj
      rcases hj with h1 | h2 | h3
      · have := hB j (by rw [RealDom.allIds]; exact List.mem_append_left _ h1)
        omega
      · have := hB j (by rw [RealDom.allIds]; exact List.mem_append_right _ h2)
        omega
      · omega
    have hTa : ∀ j ∈ idsF cs, j < da.next_id := by
      intro j hj
      have := hT j (by rw [ids_node]; exact List.mem_cons_of_mem i hj)
      rw [show da.next_id = d.next_id + 1 from rfl]
      omega
    have hDaa : ∀ j ∈ idsF cs, (da.node_data j).isSome := by
      intro j hj
      have hjlt := hT j (by rw [ids_node]; exact List.mem_cons_of_mem i hj)
      rw [show da.node_data j = if j = d.next_id then some nt else d.node_data j
        from rfl, if_neg (by omega)]
      exact hDa j (by rw [ids_node]; exact List.mem_cons_of_mem i hj)
    have hnida : d.next_id < da.next_id := by
      rw [show da.next_id = d.next_id + 1 from rfl]
      omega
    have hnotroot : d.next_id ∉ da.root_tree.ids := by
      rw [show da.root_tree = d.root_tree from rfl]
      intro hmem
      have := hB d.next_id (by rw [RealDom.allIds]; exact List.mem_append_left _ hmem)
      omega
    have hnotD : d.next_id ∉ idsF d.detached := by
      intro hmem
      have := hB d.next_id
        (by rw [RealDom.allIds]; exact List.mem_append_right _ hmem)
      omega
    have hdeta : da.detached = d.detached ++ [RTree.node d.next_id []] := rfl
    obtain ⟨d2, ev2, cs2, hcc, hr_root, hr_det, hr_next, hr_ids, hr_data,
        hr_listen, hr_len, hr_pairs, hr_wp, hr_B⟩ :=
      cloneChildren_spec cs d.next_id da d.detached [] hdeta hBa hTa hDaa
        hnida hnotroot hnotD
    refine ⟨d.next_id, d2,
      ((List.range d.num_watchers).map (fun w => Event.onAdded w d.next_id)) ++ ev2,
      RTree.node d.next_id cs2, ?_, rfl, ?_, ?_, by simp [RTree.rootId], ?_,
      ?_, ?_, ?_, ?_, ?_, hr_B⟩
    · show cloneSub (RTree.node i cs) d = _
      rw [cloneSub]
      simp only [hnt, hcreate, hcc]
    · rw [hr_root]
    · rw [hr_det]
      simp
    · have h1 : da.next_id = d.next_id + 1 := rfl
      omega
    · intro j hj
      rw [ids_node] at hj
      rcases List.mem_cons.mp hj with h1 | h2
      · have h3 : da.next_id = d.next_id + 1 := rfl
        omega
      · have := hr_ids j h2
        have h3 : da.next_id = d.next_id + 1 := rfl
        omega
    · intro j hjlt
      have hja : j < da.next_id := by
        have h1 : da.next_id = d.next_id + 1 := rfl
        omega
      rw [hr_data j hja]
      show (if j = d.next_id then some nt else d.node_data j) = d.node_data j
      rw [if_neg (by omega)]
    · rw [hr_listen]
    · rw [ContentMatch]
      refine ⟨⟨nt, hnt, ?_⟩, hr_len, ?_⟩
      · have hdan : da.node_data d.next_id = some nt := by
          show (if d.next_id = d.next_id then some nt
            else d.node_data d.next_id) = some nt
          rw [if_pos rfl]
        rw [hr_data d.next_id hnida, hdan]
      · intro p hp
        have hp1 := (List.of_mem_zip hp).1
        refine ContentMatch.mono da.node_data d2.node_data d.node_data
          d2.node_data p.1 p.2 (hr_pairs p hp) ?_ (fun j _ => rfl)
        intro j hj
        have hjlt : j < d.next_id := hT j (by
          rw [ids_node]
          exact List.mem_cons_of_mem i (mem_idsF_of_mem p.1 cs hp1 j hj))
        show d.node_data j = if j = d.next_id then some nt else d.node_data j
        rw [if_neg (by omega)]
    · exact ⟨hr_wp.1.trans rfl, hr_wp.2.trans rfl⟩
termination_by sizeOf t

/-- Master lemma for `cloneChildren`: cloning the sibling subtrees in order
and attaching each clone under the (detached) node `nid` extends that node's
child list with the clones, allocating only fresh identities. -/
theorem cloneChildren_spec (cs : List RTree) (nid : Nat) (d : RealDom)
    (D acc : List RTree)
    (hdet : d.detached = D ++ [RTree.node nid acc])
    (hB : ∀ j ∈ d.allIds, j < d.next_id)
    (hT : ∀ j ∈ idsF cs, j < d.next_id)
    (hDa : ∀ j ∈ idsF cs, (d.node_data j).isSome)
    (hnid : nid < d.next_id)
    (hnotroot : nid ∉ d.root_tree.ids)
    (hnotD : nid ∉ idsF D) :
    ∃ d2 ev cs2, cloneChildren cs nid d = some (d2, ev) ∧
      d2.root_tree = d.root_tree ∧
      d2.detached = D ++ [RTree.node nid (acc ++ cs2)] ∧
      d.next_id ≤ d2.next_id ∧
      (∀ j ∈ idsF cs2, d.next_id ≤ j ∧ j < d2.next_id) ∧
      (∀ j, j < d.next_id → d2.node_data j = d.node_data j) ∧
      d2.nodes_listening = d.nodes_listening ∧
      cs.length = cs2.length ∧
      (∀ p ∈ cs.zip cs2, ContentMatch d.node_data d2.node_data p.1 p.2) ∧
      (d2.num_watchers = d.num_watchers ∧ d2.passes = d.passes) ∧
      (∀ j ∈ d2.allIds, j < d2.next_id) := by
  match cs with
  | [] =>
    refine ⟨d, [], [], rfl, rfl, ?_, le_refl _, by simp [idsF],
      fun j _ => rfl, rfl, rfl, by simp, ⟨rfl, rfl⟩, hB⟩
    rw [hdet]
    simp
  | c :: rest =>
    have hTc : ∀ j ∈ c.ids, j < d.next_id := fun j hj =>
      hT j (by rw [idsF_cons]; exact List.mem_append_left _ hj)
    have hDc : ∀ j ∈ c.ids, (d.node_data j).isSome := fun j hj =>
      hDa j (by rw [idsF_cons]; exact List.mem_append_left _ hj)
    obtain ⟨cid, da, ev1, tc, hcs_eq, hcid, ha_root, ha_det, htc_root, ha_next,
        htc_ids, ha_data, ha_listen, ha_match, ⟨ha_w, ha_p⟩, ha_B⟩ :=
      cloneSub_spec c d hB hTc hDc
    have hD_sub : ∀ j ∈ idsF D, j ∈ d.allIds := by
      intro j hj
      rw [RealDom.allIds, hdet]
      refine List.mem_append_right _ ?_
      rw [idsF_append]
      exact List.mem_append_left _ hj
    have hacc_sub : ∀ j ∈ idsF acc, j ∈ d.allIds := by
      intro j hj
      rw [RealDom.allIds, hdet]
      refine List.mem_append_right _ ?_
      rw [idsF_append, idsF_cons, ids_node]
      simp only [idsF, List.append_nil]
      exact List.mem_append_right _ (List.mem_cons_of_mem nid hj)
    obtain ⟨db, ev2, hadd, hb_root, hb_det, hb_data, hb_listen, hb_next,
        hb_w, hb_p⟩ :=
      add_child_clone_step da nid cid D acc tc
        (by rw [ha_det, hdet])
        (by intro j hj
            rw [ha_root] at hj
            rw [hcid]
            exact hB j (by rw [RealDom.allIds]; exact List.mem_append_left _ hj))
        (by intro j hj
            rw [hcid]
            exact hB j (hD_sub j hj))
        (by rw [hcid]; exact hnid)
        (by intro j hj
            rw [hcid]
            exact hB j (hacc_sub j hj))
        htc_root
        (by rw [ha_root]; exact hnotroot)
        hnotD
    have hdnext_db : db.next_id = da.next_id := hb_next
    have hb_allmem : ∀ j, j ∈ db.allIds → j ∈ da.allIds := by
      intro j hj
      rw [RealDom.allIds, hb_root, hb_det] at hj
      rw [RealDom.allIds, ha_det, hdet]
      rw [idsF_append, idsF_cons, ids_node] at hj
      rw [idsF_append, idsF_append, idsF_cons, ids_node]
      simp only [idsF, idsF_append, idsF_cons, List.append_nil,
        List.mem_append, List.mem_cons, List.not_mem_nil, or_false] at hj ⊢
      tauto
    obtain ⟨d2, ev3, cs2r, hccr, hr_root, hr_det, hr_next, hr_ids, hr_data,
        hr_listen, hr_len, hr_pairs, hr_wp, hr_B⟩ :=
      cloneChildren_spec rest nid db D (acc ++ [tc]) hb_det
        (by intro j hj
            rw [hdnext_db]
            exact ha_B j (hb_allmem j hj))
        (by intro j hj
            have := hT j (by rw [idsF_cons]; exact List.mem_append_right _ hj)
            rw [hdnext_db]
            omega)
        (by intro j hj
            have hlt := hT j (by rw [idsF_cons]; exact List.mem_append_right _ hj)
            rw [hb_data, ha_data j hlt]
            exact hDa j (by rw [idsF_cons]; exact List.mem_append_right _ hj))
        (by rw [hdnext_db]; omega)
        (by rw [hb_root, ha_root]; exact hnotroot)
        hnotD
    refine ⟨d2, ev1 ++ ev2 ++ ev3, tc :: cs2r, ?_, ?_, ?_, ?_, ?_, ?_, ?_,
      ?_, ?_, ?_, hr_B⟩
    · show cloneChildren (c :: rest) nid d = _
      rw [cloneChildren]
      simp only [hcs_eq, hadd, hccr]
    · rw [hr_root, hb_root, ha_root]
    · rw [hr_det]
      simp
    · rw [hdnext_db] at hr_next
      omega
    · intro j hj
      rw [idsF_cons] at hj
      rcases List.mem_append.mp hj with h1 | h2
      · have := htc_ids j h1
        rw [hdnext_db] at hr_next
        omega
      · have := hr_ids j h2
        rw [hdnext_db] at this
        omega
    · intro j hjlt
      rw [hr_data j (by rw [hdnext_db]; omega), hb_data, ha_data j hjlt]
    · rw [hr_listen, hb_listen, ha_listen]
    · simp only [List.length_cons, hr_len]
    · intro p hp
      rw [List.zip_cons_cons] at hp
      rcases List.mem_cons.mp hp with h1 | h2
      · rw [h1]
        refine ContentMatch.mono d.node_data da.node_data d.node_data
          d2.node_data c tc ha_match (fun j _ => rfl) ?_
        intro j hj
        have hjb := htc_ids j hj
        rw [hr_data j (by rw [hdnext_db]; omega), hb_data]
      · refine ContentMatch.mono db.node_data d2.node_data d.node_data
          d2.node_data p.1 p.2 (hr_pairs p h2) ?_ (fun j _ => rfl)
        intro j hj
        have hp1 := (List.of_mem_zip h2).1
        have hjlt : j < d.next_id := hT j (by
          rw [idsF_cons]
          exact List.mem_append_right _ (mem_idsF_of_mem p.1 rest hp1 j hj))
        rw [hb_data, ha_data j hjlt]
    · exact ⟨hr_wp.1.trans (hb_w.trans ha_w), hr_wp.2.trans (hb_p.trans ha_p)⟩
termination_by sizeOf cs

end

/-- C9: cloning an existing node produces a subtree isomorphic to the
original's subtree — fresh identities, content matching node-for-node — and
no identity of the cloned subtree appears in the listener index (which the
clone never touches). -/
theorem c9_clone_node_isomorphic_fresh_unindexed
    (d : RealDom) (n : Nat) (t : RTree)
    (hsub : d.subtree n = some t)
    (hB : ∀ j ∈ d.allIds, j < d.next_id)
    (hDa : ∀ j ∈ t.ids, (d.node_data j).isSome)
    (hIdx : ∀ e s, d.nodes_listening e = some s → ∀ j ∈ s, j < d.next_id) :
    ∃ nid d2 ev t2, d.clone_node n = some (nid, d2, ev) ∧
      d2.subtree nid = some t2 ∧
      ContentMatch d.node_data d2.node_data t t2 ∧
      (∀ j ∈ t2.ids, j ∉ d.allIds) ∧
      (∀ e s, d2.nodes_listening e = some s → ∀ j ∈ t2.ids, j ∉ s) := by
  have hT : ∀ j ∈ t.ids, j < d.next_id := fun j hj =>
    hB j (subtree_ids_subset d n t hsub j hj)
  obtain ⟨nid, d2, ev, t2, heq, hnid, hroot2, hdet2, ht2root, hnext, ht2ids,
      hdata, hlisten, hmatch, hwp, hB2⟩ := cloneSub_spec t d hB hT hDa
  refine ⟨nid, d2, ev, t2, ?_, ?_, hmatch, ?_, ?_⟩
  · rw [RealDom.clone_node, hsub]
    exact heq
  · have hnr : findT nid d2.root_tree = none := by
      rw [hroot2]
      refine findT_of_not_mem nid d.root_tree (fun hmem => ?_)
      have hlt := hB nid (by rw [RealDom.allIds]; exact List.mem_append_left _ hmem)
      omega
    have hnd : findF nid d.detached = none := by
      refine findF_of_not_mem nid d.detached (fun hmem => ?_)
      have hlt := hB nid
        (by rw [RealDom.allIds]; exact List.mem_append_right _ hmem)
      omega
    rw [RealDom.subtree, hnr, hdet2, findF_append_of_none nid _ _ hnd]
    obtain ⟨j2, cs2⟩ := t2
    rw [RTree.rootId] at ht2root
    rw [findF, findT, if_pos ht2root]
  · intro j hj hmem
    have h1 := (ht2ids j hj).1
    have h2 := hB j hmem
    omega
  · intro e s hs j hj hjs
    rw [hlisten] at hs
    have h1 := (ht2ids j hj).1
    have h2 := hIdx e s hs j hjs
    omega

/-- The sample dom's identities are all below its allocation counter. -/
theorem sampleDom_bounded : ∀ j ∈ sampleDom.allIds, j < sampleDom.next_id := by
  intro j hj
  have : sampleDom.allIds = [0, 1] := by
    rw [RealDom.allIds]
    simp [sampleDom, RTree.ids, idsF]
  rw [this] at hj
  show j < 2
  rcases List.mem_cons.mp hj with h1 | h2
  · omega
  · simp at h2
    omega

/-- The sample dom's listener index only holds identities below the
allocation counter. -/
theorem sampleDom_index_bounded :
    ∀ e s, sampleDom.nodes_listening e = some s → ∀ j ∈ s, j < sampleDom.next_id := by
  intro e s hs j hj
  by_cases he : e = "click"
  · have hs2 : (if e = "click" then some ({1} : Finset Nat) else none) = some s :=
      hs
    rw [if_pos he] at hs2
    simp only [Option.some.injEq] at hs2
    rw [← hs2] at hj
    simp at hj
    show j < 2
    omega
  · have hs2 : (if e = "click" then some ({1} : Finset Nat) else none) = some s :=
      hs
    rw [if_neg he] at hs2
    cases hs2

/-- Witness for C9 at a concrete input: cloning node 1 of the sample dom. -/
theorem c9_witness :
    (sampleDom.subtree 1 = some (RTree.node 1 [])) ∧
    (∀ j ∈ sampleDom.allIds, j < sampleDom.next_id) ∧
    (∀ j ∈ (RTree.node 1 []).ids, (sampleDom.node_data j).isSome) ∧
    (∀ e s, sampleDom.nodes_listening e = some s →
      ∀ j ∈ s, j < sampleDom.next_id) ∧
    (∃ nid d2 ev t2, sampleDom.clone_node 1 = some (nid, d2, ev) ∧
      d2.subtree nid = some t2 ∧
      ContentMatch sampleDom.node_data d2.node_data (RTree.node 1 []) t2 ∧
      (∀ j ∈ t2.ids, j ∉ sampleDom.allIds) ∧
      (∀ e s, d2.nodes_listening e = some s → ∀ j ∈ t2.ids, j ∉ s)) := by
  have h1 : sampleDom.subtree 1 = some (RTree.node 1 []) := by
    simp [RealDom.subtree, sampleDom, findT, findF]
  have h4 : ∀ j ∈ (RTree.node 1 []).ids, (sampleDom.node_data j).isSome := by
    intro j hj
    simp only [RTree.ids, idsF] at hj
    simp only [List.mem_singleton] at hj
    subst hj
    simp [sampleDom]
  exact ⟨h1, sampleDom_bounded, h4, sampleDom_index_bounded,
    c9_clone_node_isomorphic_fresh_unindexed sampleDom 1 (RTree.node 1 [])
      h1 sampleDom_bounded h4 sampleDom_index_bounded⟩

/-- C2 fails as stated on the code: cloning a node that has a listener
produces a dom whose listener index and per-node listener sets disagree —
the clone's content carries the copied listener set while the index knows
nothing of the new identity. -/
theorem c2_counterexample_clone_node_breaks_consistency :
    Consistent sampleDom ∧ (sampleDom.clone_node 1).isSome ∧
      ¬ Consistent cloneResultDom := by
  have h1 : sampleDom.subtree 1 = some (RTree.node 1 []) := by
    simp [RealDom.subtree, sampleDom, findT, findF]
  have hT : ∀ j ∈ (RTree.node 1 []).ids, j < sampleDom.next_id := fun j hj =>
    sampleDom_bounded j (subtree_ids_subset sampleDom 1 _ h1 j hj)
  have h4 : ∀ j ∈ (RTree.node 1 []).ids, (sampleDom.node_data j).isSome := by
    intro j hj
    simp only [RTree.ids, idsF] at hj
    simp only [List.mem_singleton] at hj
    subst hj
    simp [sampleDom]
  obtain ⟨nid, d2, ev, t2, heq, hnid, hroot2, hdet2, ht2root, hnext, ht2ids,
      hdata, hlisten, hmatch, hwp, hB2⟩ :=
    cloneSub_spec (RTree.node 1 []) sampleDom sampleDom_bounded hT h4
  have hclone : sampleDom.clone_node 1 = some (nid, d2, ev) := by
    rw [RealDom.clone_node, h1]
    exact heq
  have hres : cloneResultDom = d2 := by
    rw [cloneResultDom, hclone]
  refine ⟨sampleDom_consistent, by rw [hclone]; rfl, ?_⟩
  rw [hres]
  intro hcon
  obtain ⟨j2, cs2⟩ := t2
  rw [ContentMatch] at hmatch
  obtain ⟨⟨nt, hf, hg⟩, _, _⟩ := hmatch
  have hnt : nt = sampleChild := by
    have hf2 : some sampleChild = some nt := hf
    injection hf2 with hf3
    exact hf3.symm
  rw [hnt] at hg
  have hclick : "click" ∈ sampleChild.listeners := by
    simp [sampleChild, NodeType.listeners]
  obtain ⟨s, hs, hnids⟩ := (hcon "click" j2).mpr ⟨sampleChild, hg, hclick⟩
  rw [hlisten] at hs
  have hs2 : (if "click" = "click" then some ({1} : Finset Nat) else none) =
      some s := hs
  rw [if_pos rfl] at hs2
  simp only [Option.some.injEq] at hs2
  rw [← hs2] at hnids
  simp at hnids
  rw [RTree.rootId] at ht2root
  have hnid2 : sampleDom.next_id = 2 := rfl
  omega

/-- Witness for C8 at a concrete input: the "click" query on the sample dom. -/
theorem c8_witness :
    (∀ i, i ∈ sampleDom.get_listening_sorted "click" ↔
      ∃ s, sampleDom.nodes_listening "click" = some s ∧ i ∈ s) ∧
    List.Pairwise (fun a b =>
      (sampleDom.heightOf b).getD 0 ≤ (sampleDom.heightOf a).getD 0)
      (sampleDom.get_listening_sorted "click") ∧
    (sampleDom.nodes_listening "click" = none →
      sampleDom.get_listening_sorted "click" = []) :=
  c8_get_listening_sorted_members_and_order sampleDom "click"
